import Mathlib

/-!
# Verification of the ra-https attested tunnel against its specification

This file embeds the tunnel client (`src/tunnel/client.ts`, class `RA`),
the tunnel server (`TunnelServer`) and the cryptographic envelope format
they share, and proves or refutes the frozen claims about them.

Bytes are modelled as `Nat` values below 256, byte strings as `List Nat`.
External library primitives used by the code (libsodium's
XSalsa20-Poly1305 secretbox, base64, JSON, CBOR) are implemented
concretely and executably, following their published algorithms, so that
every theorem can be evaluated on concrete inputs.
-/

/-! ## Byte and 32-bit word arithmetic -/

/-- Bytes of an ASCII string, as natural numbers. -/
def bytesOfAscii (s : String) : List Nat :=
  s.toList.map (fun c => c.toNat)

/-- 2^32, the modulus of 32-bit words. -/
def M32 : Nat := 4294967296

/-- 32-bit addition. -/
def add32 (a b : Nat) : Nat := (a + b) % M32

/-- 32-bit left rotation (input assumed below 2^32). -/
def rotl32 (x n : Nat) : Nat := ((x <<< n) ||| (x >>> (32 - n))) % M32

/-- Four little-endian bytes of a 32-bit word. -/
def le4 (w : Nat) : List Nat :=
  [w % 256, w / 256 % 256, w / 65536 % 256, w / 16777216 % 256]

/-- A 32-bit word from four little-endian bytes at offset `4*i` of a byte
string (reads past the end as zero, as the embedding's total stand-in for
bounds-checked access). -/
def leWordAt (bs : List Nat) (i : Nat) : Nat :=
  bs.getD (4 * i) 0 + 256 * bs.getD (4 * i + 1) 0 +
    65536 * bs.getD (4 * i + 2) 0 + 16777216 * bs.getD (4 * i + 3) 0

/-! ## Salsa20 / XSalsa20 (libsodium's stream cipher) -/

/-- The sixteen 32-bit words of a Salsa20 state. -/
structure Salsa20State where
  y0 : Nat
  y1 : Nat
  y2 : Nat
  y3 : Nat
  y4 : Nat
  y5 : Nat
  y6 : Nat
  y7 : Nat
  y8 : Nat
  y9 : Nat
  y10 : Nat
  y11 : Nat
  y12 : Nat
  y13 : Nat
  y14 : Nat
  y15 : Nat

/-- The Salsa20 quarterround function. -/
def quarterround (y0 y1 y2 y3 : Nat) : Nat × Nat × Nat × Nat :=
  let z1 := y1 ^^^ rotl32 (add32 y0 y3) 7
  let z2 := y2 ^^^ rotl32 (add32 z1 y0) 9
  let z3 := y3 ^^^ rotl32 (add32 z2 z1) 13
  let z0 := y0 ^^^ rotl32 (add32 z3 z2) 18
  (z0, z1, z2, z3)

/-- The Salsa20 columnround. -/
def columnround (s : Salsa20State) : Salsa20State :=
  let (z0, z4, z8, z12) := quarterround s.y0 s.y4 s.y8 s.y12
  let (z5, z9, z13, z1) := quarterround s.y5 s.y9 s.y13 s.y1
  let (z10, z14, z2, z6) := quarterround s.y10 s.y14 s.y2 s.y6
  let (z15, z3, z7, z11) := quarterround s.y15 s.y3 s.y7 s.y11
  ⟨z0, z1, z2, z3, z4, z5, z6, z7, z8, z9, z10, z11, z12, z13, z14, z15⟩

/-- The Salsa20 rowround. -/
def rowround (s : Salsa20State) : Salsa20State :=
  let (z0, z1, z2, z3) := quarterround s.y0 s.y1 s.y2 s.y3
  let (z5, z6, z7, z4) := quarterround s.y5 s.y6 s.y7 s.y4
  let (z10, z11, z8, z9) := quarterround s.y10 s.y11 s.y8 s.y9
  let (z15, z12, z13, z14) := quarterround s.y15 s.y12 s.y13 s.y14
  ⟨z0, z1, z2, z3, z4, z5, z6, z7, z8, z9, z10, z11, z12, z13, z14, z15⟩

/-- One Salsa20 doubleround. -/
def doubleround (s : Salsa20State) : Salsa20State :=
  rowround (columnround s)

/-- Ten doublerounds, the round count of Salsa20/20. -/
def doubleround10 (s : Salsa20State) : Salsa20State :=
  doubleround (doubleround (doubleround (doubleround (doubleround
    (doubleround (doubleround (doubleround (doubleround (doubleround s)))))))))

/-- The Salsa20 expansion of a 32-byte key and a 16-byte input into the
initial state, with the "expand 32-byte k" constants on the diagonal. -/
def salsa20Expand (key input : List Nat) : Salsa20State :=
  ⟨0x61707865, leWordAt key 0, leWordAt key 1, leWordAt key 2, leWordAt key 3,
   0x3320646e, leWordAt input 0, leWordAt input 1, leWordAt input 2, leWordAt input 3,
   0x79622d32, leWordAt key 4, leWordAt key 5, leWordAt key 6, leWordAt key 7,
   0x6b206574⟩

/-- The 64 output bytes of the Salsa20 core: ten doublerounds, then the
wordwise addition of the initial state, serialized little-endian. -/
def salsa20Block (key input : List Nat) : List Nat :=
  let x := salsa20Expand key input
  let z := doubleround10 x
  le4 (add32 z.y0 x.y0) ++ le4 (add32 z.y1 x.y1) ++ le4 (add32 z.y2 x.y2) ++
  le4 (add32 z.y3 x.y3) ++ le4 (add32 z.y4 x.y4) ++ le4 (add32 z.y5 x.y5) ++
  le4 (add32 z.y6 x.y6) ++ le4 (add32 z.y7 x.y7) ++ le4 (add32 z.y8 x.y8) ++
  le4 (add32 z.y9 x.y9) ++ le4 (add32 z.y10 x.y10) ++ le4 (add32 z.y11 x.y11) ++
  le4 (add32 z.y12 x.y12) ++ le4 (add32 z.y13 x.y13) ++ le4 (add32 z.y14 x.y14) ++
  le4 (add32 z.y15 x.y15)

/-- HSalsa20: ten doublerounds without the final addition; the words
z0, z5, z10, z15, z6, z7, z8, z9 form the 32-byte output. -/
def hsalsa20 (key input : List Nat) : List Nat :=
  let z := doubleround10 (salsa20Expand key input)
  le4 z.y0 ++ le4 z.y5 ++ le4 z.y10 ++ le4 z.y15 ++
  le4 z.y6 ++ le4 z.y7 ++ le4 z.y8 ++ le4 z.y9

/-- The XSalsa20 keystream: the key is first stretched with HSalsa20 over
the first 16 nonce bytes; blocks are Salsa20 over the remaining 8 nonce
bytes and a little-endian 64-bit block counter. -/
def xsalsa20Block (key nonce : List Nat) (counter : Nat) : List Nat :=
  let subkey := hsalsa20 key (nonce.take 16)
  salsa20Block subkey
    (nonce.drop 16 ++ le4 (counter % M32) ++ le4 (counter / M32))

/-- The first `n` bytes of the XSalsa20 keystream. -/
def xsalsa20Stream (key nonce : List Nat) (n : Nat) : List Nat :=
  (((List.range ((n + 63) / 64)).map (xsalsa20Block key nonce)).flatten).take n

/-! ## Poly1305 (libsodium's one-time authenticator) -/

/-- The Poly1305 prime 2^130 - 5. -/
def polyP : Nat := 1361129467683753853853498429727072845819

/-- A 16-byte chunk read as a little-endian number. -/
def leNum : List Nat → Nat
  | [] => 0
  | b :: bs => b + 256 * leNum bs

/-- Clamp the Poly1305 multiplier `r` as the algorithm requires. -/
def polyClamp (r : Nat) : Nat :=
  r &&& 0x0ffffffc0ffffffc0ffffffc0fffffff

/-- Process the message in 16-byte chunks, appending the 1 byte to each. -/
def polyBlocks (r : Nat) (msg : List Nat) (acc : Nat) : Nat :=
  if msg.length = 0 then acc
  else
    let chunk := msg.take 16
    let n := leNum chunk + 2 ^ (8 * chunk.length)
    polyBlocks r (msg.drop 16) ((acc + n) * r % polyP)
termination_by msg.length
decreasing_by
  simp only [List.length_drop]
  omega

/-- The sixteen little-endian bytes of a number (mod 2^128). -/
def le16 (n : Nat) : List Nat :=
  [n % 256, n / 2 ^ 8 % 256, n / 2 ^ 16 % 256, n / 2 ^ 24 % 256,
   n / 2 ^ 32 % 256, n / 2 ^ 40 % 256, n / 2 ^ 48 % 256, n / 2 ^ 56 % 256,
   n / 2 ^ 64 % 256, n / 2 ^ 72 % 256, n / 2 ^ 80 % 256, n / 2 ^ 88 % 256,
   n / 2 ^ 96 % 256, n / 2 ^ 104 % 256, n / 2 ^ 112 % 256, n / 2 ^ 120 % 256]

/-- The Poly1305 tag of a message under a 32-byte one-time key. -/
def poly1305 (msg polyKey : List Nat) : List Nat :=
  let r := polyClamp (leNum (polyKey.take 16))
  let s := leNum ((polyKey.drop 16).take 16)
  le16 ((polyBlocks r msg 0 + s) % 2 ^ 128)

/-! ## crypto_secretbox (XSalsa20-Poly1305 authenticated encryption) -/

/-- libsodium's `crypto_secretbox_easy`: the first 32 keystream bytes are
the one-time Poly1305 key, the message is XORed with the keystream from
byte 32 on, and the output is the 16-byte tag followed by the ciphertext. -/
def crypto_secretbox_easy (m nonce key : List Nat) : List Nat :=
  let ks := xsalsa20Stream key nonce (32 + m.length)
  let polyKey := ks.take 32
  let c := List.zipWith (fun a b => a ^^^ b) m (ks.drop 32)
  poly1305 c polyKey ++ c

/-- libsodium's `crypto_secretbox_open_easy`: recompute the tag over the
ciphertext; on a match, XOR the keystream off, otherwise fail. -/
def crypto_secretbox_open_easy (box nonce key : List Nat) : Option (List Nat) :=
  if box.length < 16 then none
  else
    let tag := box.take 16
    let c := box.drop 16
    let ks := xsalsa20Stream key nonce (32 + c.length)
    let polyKey := ks.take 32
    if poly1305 c polyKey = tag then
      some (List.zipWith (fun a b => a ^^^ b) c (ks.drop 32))
    else none

/-! ### Secretbox round-trip -/

theorem le4_length (w : Nat) : (le4 w).length = 4 := rfl

theorem salsa20Block_length (key input : List Nat) :
    (salsa20Block key input).length = 64 := by
  simp [salsa20Block, le4]

theorem xsalsa20Stream_length (key nonce : List Nat) (n : Nat) :
    (xsalsa20Stream key nonce n).length = n := by
  unfold xsalsa20Stream
  rw [List.length_take]
  have hlen : (((List.range ((n + 63) / 64)).map (xsalsa20Block key nonce)).flatten).length
      = 64 * ((n + 63) / 64) := by
    rw [List.length_flatten]
    have : ∀ l : List Nat, ∀ bs ∈ (l.map (xsalsa20Block key nonce)).map List.length,
        bs = 64 := by
      intro l bs hbs
      simp only [List.map_map, List.mem_map] at hbs
      obtain ⟨i, _, hi⟩ := hbs
      simpa [Function.comp, salsa20Block_length, xsalsa20Block] using hi.symm
    rw [List.sum_eq_card_nsmul _ 64 (this _)]
    simp [Nat.mul_comm]
  rw [hlen]
  have h1 := Nat.div_add_mod (n + 63) 64
  have h2 : (n + 63) % 64 < 64 := Nat.mod_lt _ (by omega)
  omega

theorem le16_length (n : Nat) : (le16 n).length = 16 := rfl

theorem poly1305_length (msg polyKey : List Nat) :
    (poly1305 msg polyKey).length = 16 := by
  simp [poly1305, le16]

/-- XORing a byte string twice with the same (sufficiently long) string
gives it back. -/
theorem zipWith_xor_cancel :
    ∀ (m s : List Nat), m.length ≤ s.length →
      List.zipWith (fun a b => a ^^^ b) (List.zipWith (fun a b => a ^^^ b) m s) s = m := by
  intro m
  induction m with
  | nil => intro s _; simp
  | cons a m ih =>
    intro s hs
    cases s with
    | nil => simp at hs
    | cons b s =>
      simp only [List.zipWith_cons_cons, List.cons.injEq]
      refine ⟨Nat.xor_cancel_right _ _, ih s ?_⟩
      simpa using hs

/-- Round-trip of the secretbox: opening a box produced with the same
nonce and key returns the plaintext. -/
theorem crypto_secretbox_roundtrip (m nonce key : List Nat) :
    crypto_secretbox_open_easy (crypto_secretbox_easy m nonce key) nonce key = some m := by
  simp only [crypto_secretbox_easy]
  set ks := xsalsa20Stream key nonce (32 + m.length) with hks
  set c := List.zipWith (fun a b => a ^^^ b) m (ks.drop 32) with hc
  set tag := poly1305 c (ks.take 32) with htag
  have hcl : c.length = m.length := by
    rw [hc, List.length_zipWith, List.length_drop, hks, xsalsa20Stream_length]
    omega
  have htl : tag.length = 16 := by rw [htag]; exact poly1305_length _ _
  simp only [crypto_secretbox_open_easy]
  rw [List.take_left' htl, List.drop_left' htl, hcl]
  rw [List.length_append, htl, hcl]
  rw [if_neg (by omega), if_pos rfl]
  rw [hc]
  rw [zipWith_xor_cancel m (ks.drop 32)
    (by rw [List.length_drop, hks, xsalsa20Stream_length]; omega)]

/-! ## Base64 (sodium's `to_base64` / `from_base64`, ORIGINAL variant) -/

/-- The base64 alphabet character (as a byte) of a sextet. -/
def sextetChar (s : Nat) : Nat :=
  if s < 26 then 65 + s
  else if s < 52 then 97 + (s - 26)
  else if s < 62 then 48 + (s - 52)
  else if s = 62 then 43
  else 47

/-- The sextet of a base64 alphabet character, if any. -/
def charSextet (c : Nat) : Option Nat :=
  if 65 ≤ c ∧ c ≤ 90 then some (c - 65)
  else if 97 ≤ c ∧ c ≤ 122 then some (26 + (c - 97))
  else if 48 ≤ c ∧ c ≤ 57 then some (52 + (c - 48))
  else if c = 43 then some 62
  else if c = 47 then some 63
  else none

/-- Base64-encode a byte string, with `=` (byte 61) padding. -/
def b64encode : List Nat → List Nat
  | [] => []
  | [a] => [sextetChar (a / 4), sextetChar (a % 4 * 16), 61, 61]
  | [a, b] =>
    [sextetChar (a / 4), sextetChar (a % 4 * 16 + b / 16), sextetChar (b % 16 * 4), 61]
  | a :: b :: c :: rest =>
    sextetChar (a / 4) :: sextetChar (a % 4 * 16 + b / 16) ::
      sextetChar (b % 16 * 4 + c / 64) :: sextetChar (c % 64) :: b64encode rest

/-- Base64-decode a string of bytes; fails on anything that is not
well-formed base64 with padding. -/
def b64decode : List Nat → Option (List Nat)
  | [] => some []
  | c1 :: c2 :: c3 :: c4 :: rest =>
    (charSextet c1).bind fun s1 =>
    (charSextet c2).bind fun s2 =>
    if c3 = 61 then
      if c4 = 61 ∧ rest = [] then some [s1 * 4 + s2 / 16] else none
    else
      (charSextet c3).bind fun s3 =>
      if c4 = 61 then
        if rest = [] then some [s1 * 4 + s2 / 16, s2 % 16 * 16 + s3 / 4] else none
      else
        (charSextet c4).bind fun s4 =>
        (b64decode rest).map fun tail =>
          (s1 * 4 + s2 / 16) :: (s2 % 16 * 16 + s3 / 4) :: (s3 % 4 * 64 + s4) :: tail
  | _ => none

theorem charSextet_sextetChar : ∀ s : Nat, s < 64 → charSextet (sextetChar s) = some s := by
  decide

theorem sextetChar_ne_61 (s : Nat) : sextetChar s ≠ 61 := by
  unfold sextetChar
  split_ifs <;> omega

theorem sextetChar_eq_61_iff (s : Nat) : (sextetChar s = 61) = False := by
  simp [sextetChar_ne_61 s]

/-- Round-trip of base64 on genuine byte strings. -/
theorem b64decode_b64encode :
    ∀ bs : List Nat, (∀ b ∈ bs, b < 256) → b64decode (b64encode bs) = some bs := by
  intro bs
  induction bs using b64encode.induct with
  | case1 =>
    intro _
    rfl
  | case2 a =>
    intro hb
    have ha : a < 256 := hb a (by simp)
    have e1 : charSextet (sextetChar (a / 4)) = some (a / 4) :=
      charSextet_sextetChar _ (by omega)
    have e2 : charSextet (sextetChar (a % 4 * 16)) = some (a % 4 * 16) :=
      charSextet_sextetChar _ (by omega)
    have h1 : a / 4 * 4 + a % 4 * 16 / 16 = a := by omega
    simp only [b64encode, b64decode, e1, e2, Option.some_bind, if_true, and_self, h1]
  | case3 a b =>
    intro hb
    have ha : a < 256 := hb a (by simp)
    have hbb : b < 256 := hb b (by simp)
    have e1 : charSextet (sextetChar (a / 4)) = some (a / 4) :=
      charSextet_sextetChar _ (by omega)
    have e2 : charSextet (sextetChar (a % 4 * 16 + b / 16)) = some (a % 4 * 16 + b / 16) :=
      charSextet_sextetChar _ (by omega)
    have e3 : charSextet (sextetChar (b % 16 * 4)) = some (b % 16 * 4) :=
      charSextet_sextetChar _ (by omega)
    have h1 : a / 4 * 4 + (a % 4 * 16 + b / 16) / 16 = a := by omega
    have h2 : (a % 4 * 16 + b / 16) % 16 * 16 + b % 16 * 4 / 4 = b := by omega
    simp only [b64encode, b64decode, e1, e2, e3, Option.some_bind,
      sextetChar_eq_61_iff, if_false, if_true, h1, h2]
  | case4 a b c rest ih =>
    intro hb
    have ha : a < 256 := hb a (by simp)
    have hbb : b < 256 := hb b (by simp)
    have hc : c < 256 := hb c (by simp)
    have hrest : ∀ x ∈ rest, x < 256 := by
      intro x hx
      exact hb x (by simp [hx])
    have e1 : charSextet (sextetChar (a / 4)) = some (a / 4) :=
      charSextet_sextetChar _ (by omega)
    have e2 : charSextet (sextetChar (a % 4 * 16 + b / 16)) = some (a % 4 * 16 + b / 16) :=
      charSextet_sextetChar _ (by omega)
    have e3 : charSextet (sextetChar (b % 16 * 4 + c / 64)) = some (b % 16 * 4 + c / 64) :=
      charSextet_sextetChar _ (by omega)
    have e4 : charSextet (sextetChar (c % 64)) = some (c % 64) :=
      charSextet_sextetChar _ (by omega)
    have h1 : a / 4 * 4 + (a % 4 * 16 + b / 16) / 16 = a := by omega
    have h2 : (a % 4 * 16 + b / 16) % 16 * 16 + (b % 16 * 4 + c / 64) / 4 = b := by omega
    have h3 : (b % 16 * 4 + c / 64) % 4 * 64 + c % 64 = c := by omega
    simp only [b64encode, b64decode, e1, e2, e3, e4, Option.some_bind,
      sextetChar_eq_61_iff, if_false, ih hrest, Option.map_some, h1, h2, h3]
    rfl

/-! ## JavaScript values and JSON

The tunnel's browser leg serializes messages with `JSON.stringify` and
`JSON.parse`.  `JSVal` models the JavaScript values that can appear as a
payload: strings are their UTF-8 bytes, `bytes` is a `Uint8Array`.
Numbers are modelled as integers (every numeric field of the tunnel
messages is an integer). -/

inductive JSVal where
  | null : JSVal
  | undef : JSVal
  | bool : Bool → JSVal
  | num : Int → JSVal
  | str : List Nat → JSVal
  | bytes : List Nat → JSVal
  | arr : List JSVal → JSVal
  | obj : List (List Nat × JSVal) → JSVal

/-- Decimal digits of a positive number, most significant first. -/
def printNatAux (n : Nat) : List Nat :=
  if n = 0 then [] else printNatAux (n / 10) ++ [48 + n % 10]
termination_by n
decreasing_by
  exact Nat.div_lt_self (by omega) (by omega)

/-- The decimal byte string of a natural number. -/
def printNatBytes (n : Nat) : List Nat :=
  if n = 0 then [48] else printNatAux n

/-- The decimal byte string of an integer, as `JSON.stringify` prints it. -/
def printIntBytes : Int → List Nat
  | Int.ofNat n => printNatBytes n
  | Int.negSucc m => 45 :: printNatBytes (m + 1)

/-- A lowercase hexadecimal digit byte. -/
def hexDigitByte (n : Nat) : Nat :=
  if n < 10 then 48 + n else 87 + n

/-- How `JSON.stringify` escapes one byte of a string: quote and backslash
get a backslash, the named control characters get their short forms, other
control bytes become `\u00XX`, everything else passes through. -/
def escByte (b : Nat) : List Nat :=
  if b = 34 then [92, 34]
  else if b = 92 then [92, 92]
  else if b = 8 then [92, 98]
  else if b = 9 then [92, 116]
  else if b = 10 then [92, 110]
  else if b = 12 then [92, 102]
  else if b = 13 then [92, 114]
  else if b < 32 then [92, 117, 48, 48, hexDigitByte (b / 16), hexDigitByte (b % 16)]
  else [b]

/-- Escape a whole string body. -/
def escString (s : List Nat) : List Nat :=
  (s.map escByte).flatten

/-- Join rendered pieces with commas (byte 44). -/
def joinComma : List (List Nat) → List Nat
  | [] => []
  | [x] => x
  | x :: rest => x ++ 44 :: joinComma rest

/-- The rendered fields of a `Uint8Array` under `JSON.stringify`: index
keys in order with the byte values, as for a plain array-like object. -/
def bytesFields (i : Nat) : List Nat → List (List Nat)
  | [] => []
  | b :: rest =>
    ((34 :: (printNatBytes i ++ [34, 58])) ++ printNatBytes b) :: bytesFields (i + 1) rest

mutual

/-- `JSON.stringify` on a JavaScript value, as UTF-8 bytes; `none` is
JavaScript's `undefined` result (the value is not serializable). -/
def jsonStrVal : JSVal → Option (List Nat)
  | JSVal.null => some (bytesOfAscii "null")
  | JSVal.undef => none
  | JSVal.bool true => some (bytesOfAscii "true")
  | JSVal.bool false => some (bytesOfAscii "false")
  | JSVal.num n => some (printIntBytes n)
  | JSVal.str s => some (34 :: (escString s ++ [34]))
  | JSVal.bytes bs => some (123 :: (joinComma (bytesFields 0 bs) ++ [125]))
  | JSVal.arr xs => some (91 :: (joinComma (jsonStrElems xs) ++ [93]))
  | JSVal.obj fs => some (123 :: (joinComma (jsonStrFields fs) ++ [125]))

/-- Rendered array elements: an element whose stringification is
`undefined` is written as `null`, as `JSON.stringify` does. -/
def jsonStrElems : List JSVal → List (List Nat)
  | [] => []
  | x :: rest => ((jsonStrVal x).getD (bytesOfAscii "null")) :: jsonStrElems rest

/-- Rendered object fields: a field whose value stringifies to
`undefined` is dropped, as `JSON.stringify` does. -/
def jsonStrFields : List (List Nat × JSVal) → List (List Nat)
  | [] => []
  | (k, v) :: rest =>
    match jsonStrVal v with
    | some sv => ((34 :: (escString k ++ [34])) ++ (58 :: sv)) :: jsonStrFields rest
    | none => jsonStrFields rest

end

/-- A digit byte. -/
def isDigitByte (c : Nat) : Prop := 48 ≤ c ∧ c ≤ 57

instance (c : Nat) : Decidable (isDigitByte c) := by
  unfold isDigitByte
  infer_instance

/-- Expect a literal byte sequence at the head of the input. -/
def expectBytes : List Nat → List Nat → Option (List Nat)
  | [], t => some t
  | e :: es, c :: t => if c = e then expectBytes es t else none
  | _ :: _, [] => none

/-- Consume a maximal run of digit bytes. -/
def takeDigits : List Nat → List Nat × List Nat
  | [] => ([], [])
  | c :: t =>
    if isDigitByte c then
      let p := takeDigits t
      (c :: p.1, p.2)
    else ([], c :: t)

/-- The value of a big-endian run of decimal digit bytes. -/
def digitsVal (ds : List Nat) : Nat :=
  ds.foldl (fun acc c => acc * 10 + (c - 48)) 0

/-- Parse an unsigned decimal number (at least one digit). -/
def parseNum (input : List Nat) : Option (Nat × List Nat) :=
  let p := takeDigits input
  if p.1 = [] then none else some (digitsVal p.1, p.2)

/-- The value of a hexadecimal digit byte (0 for junk input). -/
def hexDigitVal (c : Nat) : Nat :=
  if 48 ≤ c ∧ c ≤ 57 then c - 48
  else if 97 ≤ c ∧ c ≤ 102 then c - 87
  else if 65 ≤ c ∧ c ≤ 70 then c - 55
  else 0

/-- Parse a JSON string body (the opening quote already consumed) up to
the closing quote, undoing the escapes `JSON.stringify` can produce.  A
`\uXXXX` escape is accepted for code points below 128, the range the wire
format of this repository can contain (the stringifier only emits
`\u00XX` for control bytes). -/
def parseStrBody : List Nat → Option (List Nat × List Nat)
  | [] => none
  | c :: t =>
    if c = 34 then some ([], t)
    else if c = 92 then
      match t with
      | [] => none
      | e :: t2 =>
        if e = 34 ∨ e = 92 ∨ e = 47 then
          (parseStrBody t2).map (fun p => (e :: p.1, p.2))
        else if e = 98 then (parseStrBody t2).map (fun p => (8 :: p.1, p.2))
        else if e = 116 then (parseStrBody t2).map (fun p => (9 :: p.1, p.2))
        else if e = 110 then (parseStrBody t2).map (fun p => (10 :: p.1, p.2))
        else if e = 102 then (parseStrBody t2).map (fun p => (12 :: p.1, p.2))
        else if e = 114 then (parseStrBody t2).map (fun p => (13 :: p.1, p.2))
        else if e = 117 then
          match t2 with
          | h1 :: h2 :: h3 :: h4 :: t3 =>
            let cp := hexDigitVal h1 * 4096 + hexDigitVal h2 * 256 +
              hexDigitVal h3 * 16 + hexDigitVal h4
            if cp < 128 then (parseStrBody t3).map (fun p => (cp :: p.1, p.2))
            else none
          | _ => none
        else none
    else (parseStrBody t).map (fun p => (c :: p.1, p.2))

mutual

/-- A fueled parser for the JSON value grammar `JSON.stringify` emits
(the tunnel wire format carries no insignificant whitespace). -/
def jsonParseVal : Nat → List Nat → Option (JSVal × List Nat)
  | 0, _ => none
  | _ + 1, [] => none
  | fuel + 1, c :: t =>
    if c = 110 then (expectBytes [117, 108, 108] t).map (fun t2 => (JSVal.null, t2))
    else if c = 116 then (expectBytes [114, 117, 101] t).map (fun t2 => (JSVal.bool true, t2))
    else if c = 102 then
      (expectBytes [97, 108, 115, 101] t).map (fun t2 => (JSVal.bool false, t2))
    else if c = 34 then (parseStrBody t).map (fun p => (JSVal.str p.1, p.2))
    else if c = 91 then
      match t with
      | [] => none
      | c2 :: t2 =>
        if c2 = 93 then some (JSVal.arr [], t2)
        else
          (jsonParseVal fuel (c2 :: t2)).bind fun p =>
          (jsonParseElems fuel p.2).map fun q => (JSVal.arr (p.1 :: q.1), q.2)
    else if c = 123 then
      match t with
      | [] => none
      | c2 :: t2 =>
        if c2 = 125 then some (JSVal.obj [], t2)
        else if c2 = 34 then
          (parseStrBody t2).bind fun pk =>
          match pk.2 with
          | 58 :: t3 =>
            (jsonParseVal fuel t3).bind fun pv =>
            (jsonParseFields fuel pv.2).map fun q => (JSVal.obj ((pk.1, pv.1) :: q.1), q.2)
          | _ => none
        else none
    else if c = 45 then
      (parseNum t).map (fun p => (JSVal.num (-(p.1 : Int)), p.2))
    else if isDigitByte c then
      (parseNum (c :: t)).map (fun p => (JSVal.num (p.1 : Int), p.2))
    else none

/-- After the first array element: `]` ends the array, `,` continues it. -/
def jsonParseElems : Nat → List Nat → Option (List JSVal × List Nat)
  | 0, _ => none
  | _ + 1, [] => none
  | fuel + 1, c :: t =>
    if c = 93 then some ([], t)
    else if c = 44 then
      (jsonParseVal fuel t).bind fun p =>
      (jsonParseElems fuel p.2).map fun q => (p.1 :: q.1, q.2)
    else none

/-- After the first object field: `}` ends the object, `,` continues it. -/
def jsonParseFields : Nat → List Nat → Option (List (List Nat × JSVal) × List Nat)
  | 0, _ => none
  | _ + 1, [] => none
  | fuel + 1, c :: t =>
    if c = 125 then some ([], t)
    else if c = 44 then
      match t with
      | 34 :: t2 =>
        (parseStrBody t2).bind fun pk =>
        match pk.2 with
        | 58 :: t3 =>
          (jsonParseVal fuel t3).bind fun pv =>
          (jsonParseFields fuel pv.2).map fun q => ((pk.1, pv.1) :: q.1, q.2)
        | _ => none
      | _ => none
    else none

end

/-- `JSON.parse`: parse a complete value, requiring full consumption. -/
def jsonParse (bytes : List Nat) : Option JSVal :=
  match jsonParseVal (bytes.length + 1) bytes with
  | some (v, []) => some v
  | _ => none

/-! ### Decimal printing round-trips through the number parser -/

theorem printNatAux_digits : ∀ n : Nat, ∀ c ∈ printNatAux n, isDigitByte c := by
  intro n
  induction n using Nat.strong_induction_on with
  | _ n ih =>
    intro c hc
    rw [printNatAux] at hc
    by_cases hn : n = 0
    · simp [hn] at hc
    · rw [if_neg hn] at hc
      rcases List.mem_append.mp hc with h | h
      · exact ih (n / 10) (Nat.div_lt_self (by omega) (by omega)) c h
      · simp at h
        unfold isDigitByte
        omega

theorem printNatAux_ne_nil (n : Nat) (hn : n ≠ 0) : printNatAux n ≠ [] := by
  rw [printNatAux, if_neg hn]
  simp

theorem printNatBytes_digits (n : Nat) : ∀ c ∈ printNatBytes n, isDigitByte c := by
  unfold printNatBytes
  by_cases hn : n = 0
  · simp [hn]
    unfold isDigitByte
    omega
  · rw [if_neg hn]
    exact printNatAux_digits n

theorem printNatBytes_ne_nil (n : Nat) : printNatBytes n ≠ [] := by
  unfold printNatBytes
  by_cases hn : n = 0
  · simp [hn]
  · rw [if_neg hn]
    exact printNatAux_ne_nil n hn

/-- A list whose head (if any) is not a digit. -/
def nonDigitHead : List Nat → Prop
  | [] => True
  | c :: _ => ¬ isDigitByte c

theorem takeDigits_append (l rest : List Nat) (hl : ∀ c ∈ l, isDigitByte c)
    (hr : nonDigitHead rest) : takeDigits (l ++ rest) = (l, rest) := by
  induction l with
  | nil =>
    cases rest with
    | nil => rfl
    | cons c t =>
      simp only [List.nil_append, takeDigits]
      rw [if_neg hr]
  | cons c l ih =>
    simp only [List.cons_append, takeDigits, List.append_eq]
    rw [if_pos (hl c (by simp)), ih (fun x hx => hl x (by simp [hx]))]

theorem foldl_printNatAux (n acc : Nat) :
    List.foldl (fun acc c => acc * 10 + (c - 48)) acc (printNatAux n) =
      acc * 10 ^ (printNatAux n).length + n := by
  induction n using Nat.strong_induction_on generalizing acc with
  | _ n ih =>
    by_cases hn : n = 0
    · subst hn
      rw [printNatAux]
      simp
    · rw [printNatAux, if_neg hn, List.foldl_append, List.length_append]
      rw [ih (n / 10) (Nat.div_lt_self (by omega) (by omega)) acc]
      simp only [List.foldl_cons, List.foldl_nil, List.length_cons, List.length_nil]
      have h48 : 48 + n % 10 - 48 = n % 10 := by omega
      rw [h48, pow_succ]
      have hmod := Nat.div_add_mod n 10
      ring_nf
      omega

theorem digitsVal_printNatBytes (n : Nat) : digitsVal (printNatBytes n) = n := by
  unfold digitsVal printNatBytes
  by_cases hn : n = 0
  · simp [hn]
  · rw [if_neg hn, foldl_printNatAux]
    simp

theorem parseNum_print (n : Nat) (rest : List Nat) (hr : nonDigitHead rest) :
    parseNum (printNatBytes n ++ rest) = some (n, rest) := by
  unfold parseNum
  rw [takeDigits_append _ _ (printNatBytes_digits n) hr]
  simp only [printNatBytes_ne_nil n, if_false, reduceIte]
  rw [digitsVal_printNatBytes]

/-! ### String escaping round-trips through the string-body parser -/

theorem hexDigitVal_hexDigitByte : ∀ d : Nat, d < 16 → hexDigitVal (hexDigitByte d) = d := by
  decide

theorem parseStrBody_escString (s : List Nat) (rest : List Nat) :
    parseStrBody (escString s ++ (34 :: rest)) = some (s, rest) := by
  induction s with
  | nil =>
    simp only [escString, List.map_nil, List.flatten_nil, List.nil_append]
    rw [parseStrBody.eq_def]
    simp
  | cons b s ih =>
    have hflat : escString (b :: s) = escByte b ++ escString s := by
      simp [escString]
    rw [hflat, List.append_assoc]
    unfold escByte
    by_cases h34 : b = 34
    · subst h34
      simp only [reduceIte, List.cons_append, List.nil_append]
      rw [parseStrBody.eq_def]
      simp [ih]
    · rw [if_neg h34]
      by_cases h92 : b = 92
      · subst h92
        simp only [reduceIte, List.cons_append, List.nil_append]
        rw [parseStrBody.eq_def]
        simp [ih]
      · rw [if_neg h92]
        by_cases h8 : b = 8
        · subst h8
          simp only [reduceIte, List.cons_append, List.nil_append]
          rw [parseStrBody.eq_def]
          simp [ih]
        · rw [if_neg h8]
          by_cases h9 : b = 9
          · subst h9
            simp only [reduceIte, List.cons_append, List.nil_append]
            rw [parseStrBody.eq_def]
            simp [ih]
          · rw [if_neg h9]
            by_cases h10 : b = 10
            · subst h10
              simp only [reduceIte, List.cons_append, List.nil_append]
              rw [parseStrBody.eq_def]
              simp [ih]
            · rw [if_neg h10]
              by_cases h12 : b = 12
              · subst h12
                simp only [reduceIte, List.cons_append, List.nil_append]
                rw [parseStrBody.eq_def]
                simp [ih]
              · rw [if_neg h12]
                by_cases h13 : b = 13
                · subst h13
                  simp only [reduceIte, List.cons_append, List.nil_append]
                  rw [parseStrBody.eq_def]
                  simp [ih]
                · rw [if_neg h13]
                  by_cases h32 : b < 32
                  · rw [if_pos h32]
                    have e1 : hexDigitVal (hexDigitByte (b / 16)) = b / 16 :=
                      hexDigitVal_hexDigitByte _ (by omega)
                    have e2 : hexDigitVal (hexDigitByte (b % 16)) = b % 16 :=
                      hexDigitVal_hexDigitByte _ (by omega)
                    simp only [List.cons_append, List.nil_append]
                    rw [parseStrBody.eq_def]
                    simp only [reduceIte]
                    rw [show hexDigitVal 48 = 0 from rfl]
                    rw [e1, e2]
                    rw [if_pos (show 0 * 4096 + 0 * 256 + b / 16 * 16 + b % 16 < 128 by omega)]
                    rw [ih]
                    have hb16 : 0 * 4096 + 0 * 256 + b / 16 * 16 + b % 16 = b := by omega
                    simp [hb16]
                    omega
                  · rw [if_neg h32]
                    simp only [List.cons_append, List.nil_append]
                    rw [parseStrBody.eq_def]
                    simp [h34, h92, ih]

/-! ### JSON-faithful values and the round-trip of stringify/parse -/

mutual

/-- A JavaScript value that survives JSON serialization intact: no
`undefined`, no `Uint8Array`, integers in the range JavaScript prints in
plain decimal, string bytes genuine. -/
def jsonSafe : JSVal → Bool
  | JSVal.null => true
  | JSVal.undef => false
  | JSVal.bool _ => true
  | JSVal.num n => decide (-(10 ^ 21 : Int) < n ∧ n < 10 ^ 21)
  | JSVal.str s => s.all (fun b => decide (b < 256))
  | JSVal.bytes _ => false
  | JSVal.arr xs => jsonSafeElems xs
  | JSVal.obj fs => jsonSafeFields fs

def jsonSafeElems : List JSVal → Bool
  | [] => true
  | x :: rest => jsonSafe x && jsonSafeElems rest

def jsonSafeFields : List (List Nat × JSVal) → Bool
  | [] => true
  | (k, v) :: rest => k.all (fun b => decide (b < 256)) && jsonSafe v && jsonSafeFields rest

end

mutual

/-- A fuel measure for parsing: one unit per value node and one per
list element. -/
def jsonNodes : JSVal → Nat
  | JSVal.arr xs => 1 + jsonNodesElems xs
  | JSVal.obj fs => 1 + jsonNodesFields fs
  | _ => 1

def jsonNodesElems : List JSVal → Nat
  | [] => 0
  | x :: rest => 1 + jsonNodes x + jsonNodesElems rest

def jsonNodesFields : List (List Nat × JSVal) → Nat
  | [] => 0
  | (_, v) :: rest => 1 + jsonNodes v + jsonNodesFields rest

end

/-- The tail of a comma join: every piece preceded by a comma. -/
def joinTail : List (List Nat) → List Nat
  | [] => []
  | x :: rest => 44 :: (x ++ joinTail rest)

theorem joinComma_cons (a : List Nat) (l : List (List Nat)) :
    joinComma (a :: l) = a ++ joinTail l := by
  induction l generalizing a with
  | nil => simp [joinComma, joinTail]
  | cons b r ih =>
    rw [joinComma, joinTail, ih b]
    simp

/-- A safe value stringifies successfully. -/
theorem jsonStrVal_safe_isSome (v : JSVal) (hv : jsonSafe v = true) :
    ∃ s, jsonStrVal v = some s := by
  cases v with
  | undef => simp [jsonSafe] at hv
  | bool b => cases b <;> exact ⟨_, rfl⟩
  | bytes bs => simp [jsonSafe] at hv
  | _ => exact ⟨_, rfl⟩

/-- The head byte of any stringified value is one of the dispatch bytes
of the value grammar; in particular it is not a comma, bracket or brace
terminator and not the array-close byte. -/
theorem jsonStrVal_head (v : JSVal) (s : List Nat) (hs : jsonStrVal v = some s) :
    ∃ c t, s = c :: t ∧
      (c = 110 ∨ c = 116 ∨ c = 102 ∨ c = 34 ∨ c = 91 ∨ c = 123 ∨ c = 45 ∨ isDigitByte c) := by
  cases v with
  | null =>
    simp only [jsonStrVal] at hs
    injection hs with h
    refine ⟨110, [117, 108, 108], ?_, by tauto⟩
    rw [← h]
    rfl
  | undef => simp [jsonStrVal] at hs
  | bool b =>
    cases b with
    | true =>
      simp only [jsonStrVal] at hs
      injection hs with h
      refine ⟨116, [114, 117, 101], ?_, by tauto⟩
      rw [← h]
      rfl
    | false =>
      simp only [jsonStrVal] at hs
      injection hs with h
      refine ⟨102, [97, 108, 115, 101], ?_, by tauto⟩
      rw [← h]
      rfl
  | num n =>
    simp only [jsonStrVal] at hs
    cases n with
    | ofNat m =>
      simp only [printIntBytes] at hs
      injection hs with h
      rcases hm : printNatBytes m with _ | ⟨c, t⟩
      · exact absurd hm (printNatBytes_ne_nil m)
      · refine ⟨c, t, by rw [← h, hm], ?_⟩
        have := printNatBytes_digits m c (by rw [hm]; simp)
        tauto
    | negSucc m =>
      simp only [printIntBytes] at hs
      injection hs with h
      exact ⟨45, _, h.symm, by tauto⟩
  | str s' =>
    simp only [jsonStrVal] at hs
    injection hs with h
    exact ⟨34, _, h.symm, by tauto⟩
  | bytes bs =>
    simp only [jsonStrVal] at hs
    injection hs with h
    exact ⟨123, _, h.symm, by tauto⟩
  | arr xs =>
    simp only [jsonStrVal] at hs
    injection hs with h
    exact ⟨91, _, h.symm, by tauto⟩
  | obj fs =>
    simp only [jsonStrVal] at hs
    injection hs with h
    exact ⟨123, _, h.symm, by tauto⟩

/-- The rest of the input after a parsed value, at positions where the
grammar guarantees a delimiter (or the end) follows. -/
def delimOk : List Nat → Prop
  | [] => True
  | c :: _ => c = 44 ∨ c = 93 ∨ c = 125

theorem delimOk_nonDigit (rest : List Nat) (h : delimOk rest) : nonDigitHead rest := by
  cases rest with
  | nil => trivial
  | cons c t =>
    unfold delimOk at h
    unfold nonDigitHead isDigitByte
    omega

theorem delimOk_joinTail (l : List (List Nat)) (e : Nat) (rest : List Nat)
    (he : e = 93 ∨ e = 125) : delimOk (joinTail l ++ (e :: rest)) := by
  cases l with
  | nil =>
    unfold joinTail delimOk
    simpa using by omega
  | cons x r =>
    unfold joinTail delimOk
    simp

theorem jsonNodes_pos (v : JSVal) : 1 ≤ jsonNodes v := by
  cases v <;> simp [jsonNodes]

/-- A stringified head byte is never a closing bracket, closing brace or
comma. -/
theorem jsonStrVal_head_ne (c : Nat)
    (h : c = 110 ∨ c = 116 ∨ c = 102 ∨ c = 34 ∨ c = 91 ∨ c = 123 ∨ c = 45 ∨ isDigitByte c) :
    c ≠ 93 ∧ c ≠ 125 ∧ c ≠ 44 := by
  unfold isDigitByte at h
  omega

theorem jsonParseVal_null (f : Nat) (t : List Nat) :
    jsonParseVal (f + 1) (110 :: 117 :: 108 :: 108 :: t) = some (JSVal.null, t) := by
  rw [jsonParseVal.eq_def]
  simp [expectBytes]

theorem jsonParseVal_true (f : Nat) (t : List Nat) :
    jsonParseVal (f + 1) (116 :: 114 :: 117 :: 101 :: t) = some (JSVal.bool true, t) := by
  rw [jsonParseVal.eq_def]
  simp [expectBytes]

theorem jsonParseVal_false (f : Nat) (t : List Nat) :
    jsonParseVal (f + 1) (102 :: 97 :: 108 :: 115 :: 101 :: t) = some (JSVal.bool false, t) := by
  rw [jsonParseVal.eq_def]
  simp [expectBytes]

theorem jsonParseVal_str (f : Nat) (t : List Nat) :
    jsonParseVal (f + 1) (34 :: t) =
      (parseStrBody t).map (fun p => (JSVal.str p.1, p.2)) := by
  rw [jsonParseVal.eq_def]
  simp

theorem jsonParseVal_digit (f : Nat) (c : Nat) (t : List Nat) (h : isDigitByte c) :
    jsonParseVal (f + 1) (c :: t) =
      (parseNum (c :: t)).map (fun p => (JSVal.num (p.1 : Int), p.2)) := by
  have hb : 48 ≤ c ∧ c ≤ 57 := h
  rw [jsonParseVal.eq_def]
  simp only []
  rw [if_neg (by omega), if_neg (by omega), if_neg (by omega), if_neg (by omega),
    if_neg (by omega), if_neg (by omega), if_neg (by omega), if_pos h]

theorem jsonParseVal_neg (f : Nat) (t : List Nat) :
    jsonParseVal (f + 1) (45 :: t) =
      (parseNum t).map (fun p => (JSVal.num (-(p.1 : Int)), p.2)) := by
  rw [jsonParseVal.eq_def]
  simp [isDigitByte]

theorem jsonParseVal_arr_close (f : Nat) (t : List Nat) :
    jsonParseVal (f + 1) (91 :: 93 :: t) = some (JSVal.arr [], t) := by
  rw [jsonParseVal.eq_def]
  simp

theorem jsonParseVal_arr_go (f : Nat) (c2 : Nat) (t2 : List Nat) (h : c2 ≠ 93) :
    jsonParseVal (f + 1) (91 :: c2 :: t2) =
      (jsonParseVal f (c2 :: t2)).bind fun p =>
      (jsonParseElems f p.2).map fun q => (JSVal.arr (p.1 :: q.1), q.2) := by
  rw [jsonParseVal.eq_def]
  simp [h]

theorem jsonParseVal_obj_close (f : Nat) (t : List Nat) :
    jsonParseVal (f + 1) (123 :: 125 :: t) = some (JSVal.obj [], t) := by
  rw [jsonParseVal.eq_def]
  simp

theorem jsonParseVal_obj_go (f : Nat) (t2 : List Nat) (k : List Nat) (t3 : List Nat)
    (hk : parseStrBody t2 = some (k, 58 :: t3)) :
    jsonParseVal (f + 1) (123 :: 34 :: t2) =
      (jsonParseVal f t3).bind fun pv =>
      (jsonParseFields f pv.2).map fun q => (JSVal.obj ((k, pv.1) :: q.1), q.2) := by
  rw [jsonParseVal.eq_def]
  simp [hk]

theorem jsonParseElems_close (f : Nat) (t : List Nat) :
    jsonParseElems (f + 1) (93 :: t) = some ([], t) := by
  rw [jsonParseElems.eq_def]
  simp

theorem jsonParseElems_go (f : Nat) (t : List Nat) :
    jsonParseElems (f + 1) (44 :: t) =
      (jsonParseVal f t).bind fun p =>
      (jsonParseElems f p.2).map fun q => (p.1 :: q.1, q.2) := by
  rw [jsonParseElems.eq_def]
  simp

theorem jsonParseFields_close (f : Nat) (t : List Nat) :
    jsonParseFields (f + 1) (125 :: t) = some ([], t) := by
  rw [jsonParseFields.eq_def]
  simp

theorem jsonParseFields_go (f : Nat) (t2 : List Nat) (k : List Nat) (t3 : List Nat)
    (hk : parseStrBody t2 = some (k, 58 :: t3)) :
    jsonParseFields (f + 1) (44 :: 34 :: t2) =
      (jsonParseVal f t3).bind fun pv =>
      (jsonParseFields f pv.2).map fun q => ((k, pv.1) :: q.1, q.2) := by
  rw [jsonParseFields.eq_def]
  simp [hk]

theorem bytesOfAscii_null : bytesOfAscii "null" = [110, 117, 108, 108] := rfl

theorem bytesOfAscii_true : bytesOfAscii "true" = [116, 114, 117, 101] := rfl

theorem bytesOfAscii_false : bytesOfAscii "false" = [102, 97, 108, 115, 101] := rfl

/-- Round-trip of the JSON fragment: parsing what `JSON.stringify`
produced returns the value, threading any delimiter-headed tail.  The
three conjuncts cover values, array-element tails and object-field
tails, by induction on the parser fuel. -/
theorem jsonRoundtripAux : ∀ fuel : Nat,
    (∀ v s rest, jsonSafe v = true → jsonStrVal v = some s → jsonNodes v ≤ fuel →
      delimOk rest → jsonParseVal fuel (s ++ rest) = some (v, rest)) ∧
    (∀ xs rest, jsonSafeElems xs = true → jsonNodesElems xs + 1 ≤ fuel →
      jsonParseElems fuel (joinTail (jsonStrElems xs) ++ (93 :: rest)) = some (xs, rest)) ∧
    (∀ fs rest, jsonSafeFields fs = true → jsonNodesFields fs + 1 ≤ fuel →
      jsonParseFields fuel (joinTail (jsonStrFields fs) ++ (125 :: rest)) = some (fs, rest)) := by
  intro fuel
  induction fuel with
  | zero =>
    refine ⟨?_, ?_, ?_⟩
    · intro v s rest _ _ hn _
      have := jsonNodes_pos v
      omega
    · intro xs rest _ hn
      omega
    · intro fs rest _ hn
      omega
  | succ f ih =>
    obtain ⟨ihP, ihQ, ihR⟩ := ih
    refine ⟨?_, ?_, ?_⟩
    · -- values
      intro v s rest hv hs hn hd
      cases v with
      | undef => simp [jsonSafe] at hv
      | bytes bs => simp [jsonSafe] at hv
      | null =>
        simp only [jsonStrVal] at hs
        injection hs with h
        subst h
        rw [bytesOfAscii_null]
        simp only [List.cons_append, List.nil_append]
        exact jsonParseVal_null f rest
      | bool b =>
        cases b with
        | true =>
          simp only [jsonStrVal] at hs
          injection hs with h
          subst h
          rw [bytesOfAscii_true]
          simp only [List.cons_append, List.nil_append]
          exact jsonParseVal_true f rest
        | false =>
          simp only [jsonStrVal] at hs
          injection hs with h
          subst h
          rw [bytesOfAscii_false]
          simp only [List.cons_append, List.nil_append]
          exact jsonParseVal_false f rest
      | num n =>
        cases n with
        | ofNat m =>
          simp only [jsonStrVal, printIntBytes] at hs
          have h := Option.some.inj hs
          subst h
          rcases hm : printNatBytes m with _ | ⟨c, t⟩
          · exact absurd hm (printNatBytes_ne_nil m)
          · have hdig : isDigitByte c := printNatBytes_digits m c (by rw [hm]; simp)
            rw [List.cons_append, jsonParseVal_digit f c (t ++ rest) hdig,
              ← List.cons_append, ← hm,
              parseNum_print m rest (delimOk_nonDigit rest hd)]
            rfl
        | negSucc m =>
          simp only [jsonStrVal, printIntBytes] at hs
          have h := Option.some.inj hs
          subst h
          rw [List.cons_append, jsonParseVal_neg f (printNatBytes (m + 1) ++ rest),
            parseNum_print (m + 1) rest (delimOk_nonDigit rest hd)]
          have hneg : (-(((m + 1 : Nat) : Int))) = Int.negSucc m := by
            rw [Int.negSucc_coe]
          simp [hneg]
          omega
      | str s' =>
        simp only [jsonStrVal] at hs
        injection hs with h
        subst h
        rw [List.cons_append, jsonParseVal_str f ((escString s' ++ [34]) ++ rest),
          List.append_assoc, List.singleton_append, parseStrBody_escString s' rest]
        rfl
      | arr xs =>
        cases xs with
        | nil =>
          simp only [jsonStrVal, jsonStrElems, joinComma] at hs
          injection hs with h
          subst h
          simp only [List.nil_append, List.cons_append]
          exact jsonParseVal_arr_close f rest
        | cons x xs =>
          rw [jsonSafe, jsonSafeElems, Bool.and_eq_true] at hv
          obtain ⟨hx, hxs⟩ := hv
          obtain ⟨sx, hsx⟩ := jsonStrVal_safe_isSome x hx
          simp only [jsonStrVal, jsonStrElems, hsx, Option.getD_some] at hs
          injection hs with h
          subst h
          rw [joinComma_cons]
          obtain ⟨cH, tH, hsx', hhead⟩ := jsonStrVal_head x sx hsx
          obtain ⟨hne93, hne125, hne44⟩ := jsonStrVal_head_ne cH hhead
          subst hsx'
          rw [jsonNodes, jsonNodesElems] at hn
          simp only [List.cons_append, List.append_assoc, List.singleton_append,
            List.nil_append]
          rw [jsonParseVal_arr_go f cH (tH ++ (joinTail (jsonStrElems xs) ++ 93 :: rest))
            hne93]
          rw [show (cH :: (tH ++ (joinTail (jsonStrElems xs) ++ 93 :: rest))) =
            ((cH :: tH) ++ (joinTail (jsonStrElems xs) ++ 93 :: rest)) from rfl]
          rw [ihP x (cH :: tH) (joinTail (jsonStrElems xs) ++ 93 :: rest) hx hsx
            (by omega) (delimOk_joinTail _ 93 rest (by omega))]
          simp only [Option.some_bind]
          rw [ihQ xs rest hxs (by omega)]
          rfl
      | obj fs =>
        cases fs with
        | nil =>
          simp only [jsonStrVal, jsonStrFields, joinComma] at hs
          injection hs with h
          subst h
          simp only [List.nil_append, List.cons_append]
          exact jsonParseVal_obj_close f rest
        | cons kv fs =>
          obtain ⟨k, v'⟩ := kv
          rw [jsonSafe, jsonSafeFields, Bool.and_eq_true, Bool.and_eq_true] at hv
          obtain ⟨⟨hk, hv'⟩, hfs⟩ := hv
          obtain ⟨sv, hsv⟩ := jsonStrVal_safe_isSome v' hv'
          simp only [jsonStrVal, jsonStrFields, hsv] at hs
          injection hs with h
          subst h
          rw [joinComma_cons]
          rw [jsonNodes, jsonNodesFields] at hn
          simp only [List.cons_append, List.append_assoc, List.singleton_append,
            List.nil_append]
          rw [jsonParseVal_obj_go f
            (escString k ++ 34 :: 58 :: (sv ++ (joinTail (jsonStrFields fs) ++ 125 :: rest)))
            k (sv ++ (joinTail (jsonStrFields fs) ++ 125 :: rest))
            (parseStrBody_escString k
              (58 :: (sv ++ (joinTail (jsonStrFields fs) ++ 125 :: rest))))]
          rw [ihP v' sv (joinTail (jsonStrFields fs) ++ 125 :: rest) hv' hsv
            (by omega) (delimOk_joinTail _ 125 rest (by omega))]
          simp only [Option.some_bind]
          rw [ihR fs rest hfs (by omega)]
          rfl
    · -- array element tails
      intro xs rest hsafe hn
      cases xs with
      | nil =>
        rw [jsonStrElems, joinTail]
        simp only [List.nil_append]
        exact jsonParseElems_close f rest
      | cons x xs =>
        rw [jsonSafeElems, Bool.and_eq_true] at hsafe
        obtain ⟨hx, hxs⟩ := hsafe
        obtain ⟨sx, hsx⟩ := jsonStrVal_safe_isSome x hx
        rw [jsonNodesElems] at hn
        simp only [jsonStrElems, hsx, Option.getD_some, joinTail]
        simp only [List.cons_append, List.append_assoc]
        rw [jsonParseElems_go f (sx ++ (joinTail (jsonStrElems xs) ++ 93 :: rest))]
        rw [ihP x sx (joinTail (jsonStrElems xs) ++ 93 :: rest) hx hsx (by omega)
          (delimOk_joinTail _ 93 rest (by omega))]
        simp only [Option.some_bind]
        rw [ihQ xs rest hxs (by omega)]
        rfl
    · -- object field tails
      intro fs rest hsafe hn
      cases fs with
      | nil =>
        rw [jsonStrFields, joinTail]
        simp only [List.nil_append]
        exact jsonParseFields_close f rest
      | cons kv fs =>
        obtain ⟨k, v'⟩ := kv
        rw [jsonSafeFields, Bool.and_eq_true, Bool.and_eq_true] at hsafe
        obtain ⟨⟨hk, hv'⟩, hfs⟩ := hsafe
        obtain ⟨sv, hsv⟩ := jsonStrVal_safe_isSome v' hv'
        rw [jsonNodesFields] at hn
        simp only [jsonStrFields, hsv, joinTail]
        simp only [List.cons_append, List.append_assoc, List.singleton_append,
          List.nil_append]
        rw [jsonParseFields_go f
          (escString k ++ 34 :: 58 :: (sv ++ (joinTail (jsonStrFields fs) ++ 125 :: rest)))
          k (sv ++ (joinTail (jsonStrFields fs) ++ 125 :: rest))
          (parseStrBody_escString k
            (58 :: (sv ++ (joinTail (jsonStrFields fs) ++ 125 :: rest))))]
        rw [ihP v' sv (joinTail (jsonStrFields fs) ++ 125 :: rest) hv' hsv
          (by omega) (delimOk_joinTail _ 125 rest (by omega))]
        simp only [Option.some_bind]
        rw [ihR fs rest hfs (by omega)]
        rfl

/-- The node measure of a safe value is bounded by the length of its
serialization, so input-length fuel always suffices. -/
theorem jsonLenAux : ∀ n : Nat,
    (∀ v, sizeOf v ≤ n → jsonSafe v = true → ∀ s, jsonStrVal v = some s →
      jsonNodes v ≤ s.length) ∧
    (∀ xs : List JSVal, sizeOf xs ≤ n → jsonSafeElems xs = true →
      jsonNodesElems xs ≤ (joinTail (jsonStrElems xs)).length) ∧
    (∀ fs : List (List Nat × JSVal), sizeOf fs ≤ n → jsonSafeFields fs = true →
      jsonNodesFields fs ≤ (joinTail (jsonStrFields fs)).length) := by
  intro n
  induction n with
  | zero =>
    refine ⟨?_, ?_, ?_⟩
    · intro v hsz _ _ _
      have : 0 < sizeOf v := by cases v <;> simp_arith
      omega
    · intro xs hsz _
      have : 0 < sizeOf xs := by cases xs <;> simp_arith
      omega
    · intro fs hsz _
      have : 0 < sizeOf fs := by cases fs <;> simp_arith
      omega
  | succ k ih =>
    obtain ⟨ihV, ihE, ihF⟩ := ih
    refine ⟨?_, ?_, ?_⟩
    · intro v hsz hv s hs
      cases v with
      | undef => simp [jsonSafe] at hv
      | bytes bs => simp [jsonSafe] at hv
      | null =>
        have h := Option.some.inj hs
        subst h
        simp [jsonNodes, bytesOfAscii_null]
      | bool b =>
        cases b with
        | true =>
          have h := Option.some.inj hs
          subst h
          simp [jsonNodes, bytesOfAscii_true]
        | false =>
          have h := Option.some.inj hs
          subst h
          simp [jsonNodes, bytesOfAscii_false]
      | num m =>
        have h := Option.some.inj hs
        subst h
        have hne : printIntBytes m ≠ [] := by
          cases m with
          | ofNat m' => exact printNatBytes_ne_nil m'
          | negSucc m' => simp [printIntBytes]
        have := List.length_pos.mpr hne
        simp only [jsonNodes]
        omega
      | str s' =>
        have h := Option.some.inj hs
        subst h
        simp [jsonNodes]
      | arr xs =>
        have h := Option.some.inj hs
        subst h
        have hszx : sizeOf xs ≤ k := by
          simp only [JSVal.arr.sizeOf_spec] at hsz
          omega
        have hsafe : jsonSafeElems xs = true := by
          rw [jsonSafe] at hv
          exact hv
        simp only [jsonNodes, List.length_cons, List.length_append]
        cases xs with
        | nil =>
          simp [jsonNodesElems]
        | cons x xs' =>
          rw [jsonSafeElems, Bool.and_eq_true] at hsafe
          obtain ⟨hx, hxs⟩ := hsafe
          obtain ⟨sx, hsx⟩ := jsonStrVal_safe_isSome x hx
          simp only [jsonStrElems, hsx, Option.getD_some, joinComma_cons,
            List.length_append]
          have h1 : jsonNodes x ≤ sx.length := by
            apply ihV x ?_ hx sx hsx
            simp only [List.cons.sizeOf_spec] at hszx
            omega
          have h2 : jsonNodesElems xs' ≤ (joinTail (jsonStrElems xs')).length := by
            apply ihE xs' ?_ hxs
            simp only [List.cons.sizeOf_spec] at hszx
            omega
          simp only [jsonNodesElems]
          omega
      | obj fs =>
        have h := Option.some.inj hs
        subst h
        have hszf : sizeOf fs ≤ k := by
          simp only [JSVal.obj.sizeOf_spec] at hsz
          omega
        have hsafe : jsonSafeFields fs = true := by
          rw [jsonSafe] at hv
          exact hv
        simp only [jsonNodes, List.length_cons, List.length_append]
        cases fs with
        | nil =>
          simp [jsonNodesFields]
        | cons kv fs' =>
          obtain ⟨key, v'⟩ := kv
          rw [jsonSafeFields, Bool.and_eq_true, Bool.and_eq_true] at hsafe
          obtain ⟨⟨hk, hv'⟩, hfs⟩ := hsafe
          obtain ⟨sv, hsv⟩ := jsonStrVal_safe_isSome v' hv'
          simp only [jsonStrFields, hsv, joinComma_cons, List.length_append,
            List.length_cons]
          have h1 : jsonNodes v' ≤ sv.length := by
            apply ihV v' ?_ hv' sv hsv
            simp only [List.cons.sizeOf_spec, Prod.mk.sizeOf_spec] at hszf
            omega
          have h2 : jsonNodesFields fs' ≤ (joinTail (jsonStrFields fs')).length := by
            apply ihF fs' ?_ hfs
            simp only [List.cons.sizeOf_spec] at hszf
            omega
          simp only [jsonNodesFields]
          omega
    · intro xs hsz hsafe
      cases xs with
      | nil => simp [jsonNodesElems, jsonStrElems, joinTail]
      | cons x xs' =>
        rw [jsonSafeElems, Bool.and_eq_true] at hsafe
        obtain ⟨hx, hxs⟩ := hsafe
        obtain ⟨sx, hsx⟩ := jsonStrVal_safe_isSome x hx
        simp only [jsonStrElems, hsx, Option.getD_some, joinTail, List.length_cons,
          List.length_append]
        have h1 : jsonNodes x ≤ sx.length := by
          apply ihV x ?_ hx sx hsx
          simp only [List.cons.sizeOf_spec] at hsz
          omega
        have h2 : jsonNodesElems xs' ≤ (joinTail (jsonStrElems xs')).length := by
          apply ihE xs' ?_ hxs
          simp only [List.cons.sizeOf_spec] at hsz
          omega
        simp only [jsonNodesElems]
        omega
    · intro fs hsz hsafe
      cases fs with
      | nil => simp [jsonNodesFields, jsonStrFields, joinTail]
      | cons kv fs' =>
        obtain ⟨key, v'⟩ := kv
        rw [jsonSafeFields, Bool.and_eq_true, Bool.and_eq_true] at hsafe
        obtain ⟨⟨hk, hv'⟩, hfs⟩ := hsafe
        obtain ⟨sv, hsv⟩ := jsonStrVal_safe_isSome v' hv'
        simp only [jsonStrFields, hsv, joinTail, List.length_cons, List.length_append]
        have h1 : jsonNodes v' ≤ sv.length := by
          apply ihV v' ?_ hv' sv hsv
          simp only [List.cons.sizeOf_spec, Prod.mk.sizeOf_spec] at hsz
          omega
        have h2 : jsonNodesFields fs' ≤ (joinTail (jsonStrFields fs')).length := by
          apply ihF fs' ?_ hfs
          simp only [List.cons.sizeOf_spec] at hsz
          omega
        simp only [jsonNodesFields]
        omega

/-- Round-trip of the modelled `JSON.parse` and `JSON.stringify` on
JSON-faithful values. -/
theorem jsonParse_jsonStrVal (v : JSVal) (s : List Nat) (hv : jsonSafe v = true)
    (hs : jsonStrVal v = some s) : jsonParse s = some v := by
  unfold jsonParse
  have hb : jsonNodes v ≤ s.length := (jsonLenAux (sizeOf v)).1 v le_rfl hv s hs
  have h := (jsonRoundtripAux (s.length + 1)).1 v s [] hv hs (by omega) trivial
  rw [List.append_nil] at h
  rw [h]

/-! ## CBOR (the `cbor-x` wire format of the server leg)

The server serializes envelopes and inner messages with `cbor-x`.  The
model covers the RFC 8949 subset those messages use: unsigned and
negative integers, byte strings, text strings, arrays, maps with text
keys, booleans, `null` and `undefined`. -/

/-- The additional-information nibble and following argument bytes of a
CBOR head for the argument `n` (shortest form, big-endian). -/
def headArgBytes (n : Nat) : Nat × List Nat :=
  if n < 24 then (n, [])
  else if n < 256 then (24, [n])
  else if n < 65536 then (25, [n / 256, n % 256])
  else if n < 4294967296 then
    (26, [n / 16777216 % 256, n / 65536 % 256, n / 256 % 256, n % 256])
  else
    (27, [n / 2 ^ 56 % 256, n / 2 ^ 48 % 256, n / 2 ^ 40 % 256, n / 2 ^ 32 % 256,
          n / 2 ^ 24 % 256, n / 2 ^ 16 % 256, n / 2 ^ 8 % 256, n % 256])

/-- A CBOR head: major type in the top three bits, argument following. -/
def encodeHead (m n : Nat) : List Nat :=
  (m * 32 + (headArgBytes n).1) :: (headArgBytes n).2

mutual

/-- `cbor-x` encoding of a JavaScript value (the subset the tunnel
messages inhabit; objects become maps with text keys in field order). -/
def cborEncodeVal : JSVal → List Nat
  | JSVal.null => [246]
  | JSVal.undef => [247]
  | JSVal.bool false => [244]
  | JSVal.bool true => [245]
  | JSVal.num n => if 0 ≤ n then encodeHead 0 n.toNat else encodeHead 1 (-n - 1).toNat
  | JSVal.str s => encodeHead 3 s.length ++ s
  | JSVal.bytes bs => encodeHead 2 bs.length ++ bs
  | JSVal.arr xs => encodeHead 4 xs.length ++ cborEncodeElems xs
  | JSVal.obj fs => encodeHead 5 fs.length ++ cborEncodeFields fs

def cborEncodeElems : List JSVal → List Nat
  | [] => []
  | x :: r => cborEncodeVal x ++ cborEncodeElems r

def cborEncodeFields : List (List Nat × JSVal) → List Nat
  | [] => []
  | (k, v) :: r => (encodeHead 3 k.length ++ k) ++ (cborEncodeVal v ++ cborEncodeFields r)

end

/-- Read a CBOR head argument given the additional-information nibble. -/
def parseHeadArg (a : Nat) (t : List Nat) : Option (Nat × List Nat) :=
  if a < 24 then some (a, t)
  else if a = 24 then
    match t with
    | b1 :: t1 => some (b1, t1)
    | [] => none
  else if a = 25 then
    match t with
    | b1 :: b2 :: t1 => some (b1 * 256 + b2, t1)
    | _ => none
  else if a = 26 then
    match t with
    | b1 :: b2 :: b3 :: b4 :: t1 => some (((b1 * 256 + b2) * 256 + b3) * 256 + b4, t1)
    | _ => none
  else if a = 27 then
    match t with
    | b1 :: b2 :: b3 :: b4 :: b5 :: b6 :: b7 :: b8 :: t1 =>
      some ((((((((b1 * 256 + b2) * 256 + b3) * 256 + b4) * 256 + b5) * 256 + b6) * 256
        + b7) * 256 + b8), t1)
    | _ => none
  else none

mutual

/-- A fueled decoder for the CBOR subset, modelling `cbor-x`'s `decode`.  -/
def cborParseVal : Nat → List Nat → Option (JSVal × List Nat)
  | 0, _ => none
  | _ + 1, [] => none
  | fuel + 1, b :: t =>
    if b / 32 = 7 then
      if b % 32 = 20 then some (JSVal.bool false, t)
      else if b % 32 = 21 then some (JSVal.bool true, t)
      else if b % 32 = 22 then some (JSVal.null, t)
      else if b % 32 = 23 then some (JSVal.undef, t)
      else none
    else
      (parseHeadArg (b % 32) t).bind fun p =>
      if b / 32 = 0 then some (JSVal.num (p.1 : Int), p.2)
      else if b / 32 = 1 then some (JSVal.num (-1 - (p.1 : Int)), p.2)
      else if b / 32 = 2 then
        if p.1 ≤ p.2.length then some (JSVal.bytes (p.2.take p.1), p.2.drop p.1) else none
      else if b / 32 = 3 then
        if p.1 ≤ p.2.length then some (JSVal.str (p.2.take p.1), p.2.drop p.1) else none
      else if b / 32 = 4 then
        (cborParseArr fuel p.1 p.2).map fun q => (JSVal.arr q.1, q.2)
      else
        (cborParseMap fuel p.1 p.2).map fun q => (JSVal.obj q.1, q.2)

/-- Read `count` array elements. -/
def cborParseArr : Nat → Nat → List Nat → Option (List JSVal × List Nat)
  | _, 0, t => some ([], t)
  | 0, _ + 1, _ => none
  | fuel + 1, cnt + 1, t =>
    (cborParseVal fuel t).bind fun p =>
    (cborParseArr fuel cnt p.2).map fun q => (p.1 :: q.1, q.2)

/-- Read `count` map entries, each a text key and a value. -/
def cborParseMap : Nat → Nat → List Nat → Option (List (List Nat × JSVal) × List Nat)
  | _, 0, t => some ([], t)
  | 0, _ + 1, _ => none
  | _ + 1, _ + 1, [] => none
  | fuel + 1, cnt + 1, b :: t =>
    if b / 32 = 3 then
      (parseHeadArg (b % 32) t).bind fun p =>
      if p.1 ≤ p.2.length then
        (cborParseVal fuel (p.2.drop p.1)).bind fun pv =>
        (cborParseMap fuel cnt pv.2).map fun q => ((p.2.take p.1, pv.1) :: q.1, q.2)
      else none
    else none

end

/-- `cbor-x` `decode` of a complete byte string: input-proportional fuel
always suffices (shown below), so the fuel is an implementation artifact
of the embedding, not a semantic limit. -/
def cborDecode (bytes : List Nat) : Option JSVal :=
  match cborParseVal (2 * bytes.length + 1) bytes with
  | some (v, []) => some v
  | _ => none

mutual

/-- Values in the CBOR-faithful domain of the model: integers within
64 bits, genuine bytes, lengths below 2^64 (the largest head form). -/
def cborWF : JSVal → Bool
  | JSVal.null => true
  | JSVal.undef => true
  | JSVal.bool _ => true
  | JSVal.num n => decide (-(18446744073709551616 : Int) ≤ n ∧ n < 18446744073709551616)
  | JSVal.str s => s.all (fun b => decide (b < 256)) && decide (s.length < 2 ^ 64)
  | JSVal.bytes bs => bs.all (fun b => decide (b < 256)) && decide (bs.length < 2 ^ 64)
  | JSVal.arr xs => decide (xs.length < 2 ^ 64) && cborWFElems xs
  | JSVal.obj fs => decide (fs.length < 2 ^ 64) && cborWFFields fs

def cborWFElems : List JSVal → Bool
  | [] => true
  | x :: r => cborWF x && cborWFElems r

def cborWFFields : List (List Nat × JSVal) → Bool
  | [] => true
  | (k, v) :: r => decide (k.length < 2 ^ 64) && cborWF v && cborWFFields r

end

theorem headArgBytes_lt (n : Nat) : (headArgBytes n).1 < 28 := by
  unfold headArgBytes
  split_ifs with h1 h2 h3 h4
  · simp only []
    omega
  · simp
  · simp
  · simp
  · simp

theorem parseHeadArg_headArgBytes (n : Nat) (hn : n < 2 ^ 64) (t : List Nat) :
    parseHeadArg (headArgBytes n).1 ((headArgBytes n).2 ++ t) = some (n, t) := by
  unfold headArgBytes
  by_cases h1 : n < 24
  · rw [if_pos h1]
    simp only [List.nil_append]
    unfold parseHeadArg
    rw [if_pos h1]
  · rw [if_neg h1]
    by_cases h2 : n < 256
    · rw [if_pos h2]
      simp only [List.cons_append, List.nil_append]
      unfold parseHeadArg
      rw [if_neg (by omega), if_pos rfl]
    · rw [if_neg h2]
      by_cases h3 : n < 65536
      · rw [if_pos h3]
        simp only [List.cons_append, List.nil_append]
        unfold parseHeadArg
        rw [if_neg (by omega), if_neg (by omega), if_pos rfl]
        simp only []
        congr 2
        omega
      · rw [if_neg h3]
        by_cases h4 : n < 4294967296
        · rw [if_pos h4]
          simp only [List.cons_append, List.nil_append]
          unfold parseHeadArg
          rw [if_neg (by omega), if_neg (by omega), if_neg (by omega), if_pos rfl]
          simp only []
          congr 2
          omega
        · rw [if_neg h4]
          simp only [List.cons_append, List.nil_append]
          unfold parseHeadArg
          rw [if_neg (by omega), if_neg (by omega), if_neg (by omega), if_neg (by omega),
            if_pos rfl]
          simp only []
          congr 2
          omega

theorem encodeHead_div (m n : Nat) :
    (m * 32 + (headArgBytes n).1) / 32 = m := by
  have := headArgBytes_lt n
  omega

theorem encodeHead_mod (m n : Nat) :
    (m * 32 + (headArgBytes n).1) % 32 = (headArgBytes n).1 := by
  have := headArgBytes_lt n
  omega

theorem cborParseVal_num0 (fuel n : Nat) (rest : List Nat) (hn : n < 2 ^ 64) :
    cborParseVal (fuel + 1) (encodeHead 0 n ++ rest) = some (JSVal.num (n : Int), rest) := by
  unfold encodeHead
  rw [List.cons_append, cborParseVal.eq_def]
  simp only [encodeHead_div 0 n, encodeHead_mod 0 n]
  rw [if_neg (by omega), parseHeadArg_headArgBytes n hn rest]
  simp only [Option.some_bind]
  simp

theorem cborParseVal_num1 (fuel n : Nat) (rest : List Nat) (hn : n < 2 ^ 64) :
    cborParseVal (fuel + 1) (encodeHead 1 n ++ rest) =
      some (JSVal.num (-1 - (n : Int)), rest) := by
  unfold encodeHead
  rw [List.cons_append, cborParseVal.eq_def]
  simp only [encodeHead_div 1 n, encodeHead_mod 1 n]
  rw [if_neg (by omega), parseHeadArg_headArgBytes n hn rest]
  simp only [Option.some_bind]
  simp

theorem cborParseVal_bytes (fuel : Nat) (bs rest : List Nat) (h : bs.length < 2 ^ 64) :
    cborParseVal (fuel + 1) ((encodeHead 2 bs.length ++ bs) ++ rest) =
      some (JSVal.bytes bs, rest) := by
  unfold encodeHead
  simp only [List.cons_append, List.append_assoc]
  rw [cborParseVal.eq_def]
  simp only [encodeHead_div 2 bs.length, encodeHead_mod 2 bs.length]
  rw [if_neg (by omega), parseHeadArg_headArgBytes bs.length h (bs ++ rest)]
  simp only [Option.some_bind]
  simp

theorem cborParseVal_text (fuel : Nat) (s rest : List Nat) (h : s.length < 2 ^ 64) :
    cborParseVal (fuel + 1) ((encodeHead 3 s.length ++ s) ++ rest) =
      some (JSVal.str s, rest) := by
  unfold encodeHead
  simp only [List.cons_append, List.append_assoc]
  rw [cborParseVal.eq_def]
  simp only [encodeHead_div 3 s.length, encodeHead_mod 3 s.length]
  rw [if_neg (by omega), parseHeadArg_headArgBytes s.length h (s ++ rest)]
  simp only [Option.some_bind]
  simp

theorem cborParseVal_arr (fuel n : Nat) (rest : List Nat) (hn : n < 2 ^ 64) :
    cborParseVal (fuel + 1) (encodeHead 4 n ++ rest) =
      (cborParseArr fuel n rest).map fun q => (JSVal.arr q.1, q.2) := by
  unfold encodeHead
  rw [List.cons_append, cborParseVal.eq_def]
  simp only [encodeHead_div 4 n, encodeHead_mod 4 n]
  rw [if_neg (by omega), parseHeadArg_headArgBytes n hn rest]
  simp only [Option.some_bind]
  simp

theorem cborParseVal_map (fuel n : Nat) (rest : List Nat) (hn : n < 2 ^ 64) :
    cborParseVal (fuel + 1) (encodeHead 5 n ++ rest) =
      (cborParseMap fuel n rest).map fun q => (JSVal.obj q.1, q.2) := by
  unfold encodeHead
  rw [List.cons_append, cborParseVal.eq_def]
  simp only [encodeHead_div 5 n, encodeHead_mod 5 n]
  rw [if_neg (by omega), parseHeadArg_headArgBytes n hn rest]
  simp only [Option.some_bind]
  simp

theorem cborParseArr_zero (fuel : Nat) (t : List Nat) :
    cborParseArr fuel 0 t = some ([], t) := by
  cases fuel <;> rfl

theorem cborParseArr_succ (fuel cnt : Nat) (t : List Nat) :
    cborParseArr (fuel + 1) (cnt + 1) t =
      (cborParseVal fuel t).bind fun p =>
      (cborParseArr fuel cnt p.2).map fun q => (p.1 :: q.1, q.2) := rfl

theorem cborParseMap_zero (fuel : Nat) (t : List Nat) :
    cborParseMap fuel 0 t = some ([], t) := by
  cases fuel <;> rfl

theorem cborParseMap_entry (fuel cnt : Nat) (k rest : List Nat) (hk : k.length < 2 ^ 64) :
    cborParseMap (fuel + 1) (cnt + 1) ((encodeHead 3 k.length ++ k) ++ rest) =
      (cborParseVal fuel rest).bind fun pv =>
      (cborParseMap fuel cnt pv.2).map fun q => ((k, pv.1) :: q.1, q.2) := by
  unfold encodeHead
  simp only [List.cons_append, List.append_assoc]
  rw [cborParseMap.eq_def]
  simp only [encodeHead_div 3 k.length, encodeHead_mod 3 k.length]
  simp only [if_true, reduceIte]
  rw [parseHeadArg_headArgBytes k.length hk (k ++ rest)]
  simp only [Option.some_bind]
  simp

/-- Round-trip of the CBOR subset, by induction on decoder fuel. -/
theorem cborRoundtripAux : ∀ fuel : Nat,
    (∀ v rest, cborWF v = true → jsonNodes v ≤ fuel →
      cborParseVal fuel (cborEncodeVal v ++ rest) = some (v, rest)) ∧
    (∀ xs rest, cborWFElems xs = true → jsonNodesElems xs ≤ fuel →
      cborParseArr fuel xs.length (cborEncodeElems xs ++ rest) = some (xs, rest)) ∧
    (∀ fs rest, cborWFFields fs = true → jsonNodesFields fs ≤ fuel →
      cborParseMap fuel fs.length (cborEncodeFields fs ++ rest) = some (fs, rest)) := by
  intro fuel
  induction fuel with
  | zero =>
    refine ⟨?_, ?_, ?_⟩
    · intro v rest _ hn
      have := jsonNodes_pos v
      omega
    · intro xs rest _ hn
      cases xs with
      | nil =>
        rw [cborEncodeElems, List.nil_append, List.length_nil, cborParseArr_zero]
      | cons x xs' =>
        rw [jsonNodesElems] at hn
        have := jsonNodes_pos x
        omega
    · intro fs rest _ hn
      cases fs with
      | nil =>
        rw [cborEncodeFields, List.nil_append, List.length_nil, cborParseMap_zero]
      | cons kv fs' =>
        obtain ⟨k, v'⟩ := kv
        rw [jsonNodesFields] at hn
        have := jsonNodes_pos v'
        omega
  | succ f ih =>
    obtain ⟨ihP, ihQ, ihR⟩ := ih
    refine ⟨?_, ?_, ?_⟩
    · intro v rest hv hn
      cases v with
      | null =>
        rw [cborEncodeVal, cborParseVal.eq_def]
        simp
      | undef =>
        rw [cborEncodeVal, cborParseVal.eq_def]
        simp
      | bool b =>
        cases b with
        | false =>
          rw [cborEncodeVal, cborParseVal.eq_def]
          simp
        | true =>
          rw [cborEncodeVal, cborParseVal.eq_def]
          simp
      | num n =>
        rw [cborWF, decide_eq_true_iff] at hv
        rw [cborEncodeVal]
        by_cases hpos : 0 ≤ n
        · rw [if_pos hpos]
          have h1 : n.toNat < 2 ^ 64 := by omega
          rw [cborParseVal_num0 f n.toNat rest h1]
          have h2 : ((n.toNat : Int)) = n := by omega
          rw [h2]
        · rw [if_neg hpos]
          have h1 : (-n - 1).toNat < 2 ^ 64 := by omega
          rw [cborParseVal_num1 f (-n - 1).toNat rest h1]
          have h2 : (-1 - (((-n - 1).toNat : Nat) : Int)) = n := by omega
          rw [h2]
      | str s =>
        rw [cborWF, Bool.and_eq_true, decide_eq_true_iff] at hv
        rw [cborEncodeVal, cborParseVal_text f s rest hv.2]
      | bytes bs =>
        rw [cborWF, Bool.and_eq_true, decide_eq_true_iff] at hv
        rw [cborEncodeVal, cborParseVal_bytes f bs rest hv.2]
      | arr xs =>
        rw [cborWF, Bool.and_eq_true, decide_eq_true_iff] at hv
        rw [jsonNodes] at hn
        rw [cborEncodeVal, List.append_assoc, cborParseVal_arr f xs.length _ hv.1]
        have h1 : jsonNodesElems xs ≤ f := by omega
        rw [ihQ xs rest hv.2 h1]
        rfl
      | obj fs =>
        rw [cborWF, Bool.and_eq_true, decide_eq_true_iff] at hv
        rw [jsonNodes] at hn
        rw [cborEncodeVal, List.append_assoc, cborParseVal_map f fs.length _ hv.1]
        have h1 : jsonNodesFields fs ≤ f := by omega
        rw [ihR fs rest hv.2 h1]
        rfl
    · intro xs rest hsafe hn
      cases xs with
      | nil =>
        rw [cborEncodeElems, List.nil_append, List.length_nil, cborParseArr_zero]
      | cons x xs' =>
        rw [cborWFElems, Bool.and_eq_true] at hsafe
        rw [jsonNodesElems] at hn
        rw [cborEncodeElems, List.append_assoc, List.length_cons, cborParseArr_succ]
        have h1 : jsonNodes x ≤ f := by omega
        rw [ihP x (cborEncodeElems xs' ++ rest) hsafe.1 h1]
        simp only [Option.some_bind]
        have h2 : jsonNodesElems xs' ≤ f := by omega
        rw [ihQ xs' rest hsafe.2 h2]
        rfl
    · intro fs rest hsafe hn
      cases fs with
      | nil =>
        rw [cborEncodeFields, List.nil_append, List.length_nil, cborParseMap_zero]
      | cons kv fs' =>
        obtain ⟨k, v'⟩ := kv
        rw [cborWFFields, Bool.and_eq_true, Bool.and_eq_true, decide_eq_true_iff] at hsafe
        obtain ⟨⟨hk, hv'⟩, hfs⟩ := hsafe
        rw [jsonNodesFields] at hn
        rw [cborEncodeFields, List.append_assoc, List.length_cons,
          cborParseMap_entry f fs'.length k ((cborEncodeVal v' ++ cborEncodeFields fs')
            ++ rest) hk]
        rw [List.append_assoc]
        have h1 : jsonNodes v' ≤ f := by omega
        rw [ihP v' (cborEncodeFields fs' ++ rest) hv' h1]
        simp only [Option.some_bind]
        have h2 : jsonNodesFields fs' ≤ f := by omega
        rw [ihR fs' rest hfs h2]
        rfl

theorem encodeHead_len_pos (m n : Nat) : 0 < (encodeHead m n).length := by
  simp [encodeHead]

/-- The node measure is bounded by twice the encoded length, so the
input-proportional fuel of `cborDecode` always suffices. -/
theorem cborLenAux : ∀ n : Nat,
    (∀ v, sizeOf v ≤ n → jsonNodes v + 1 ≤ 2 * (cborEncodeVal v).length) ∧
    (∀ xs : List JSVal, sizeOf xs ≤ n → jsonNodesElems xs ≤ 2 * (cborEncodeElems xs).length) ∧
    (∀ fs : List (List Nat × JSVal), sizeOf fs ≤ n →
      jsonNodesFields fs ≤ 2 * (cborEncodeFields fs).length) := by
  intro n
  induction n with
  | zero =>
    refine ⟨?_, ?_, ?_⟩
    · intro v hsz
      have : 0 < sizeOf v := by cases v <;> simp_arith
      omega
    · intro xs hsz
      have : 0 < sizeOf xs := by cases xs <;> simp_arith
      omega
    · intro fs hsz
      have : 0 < sizeOf fs := by cases fs <;> simp_arith
      omega
  | succ k ih =>
    obtain ⟨ihV, ihE, ihF⟩ := ih
    refine ⟨?_, ?_, ?_⟩
    · intro v hsz
      cases v with
      | null => simp [jsonNodes, cborEncodeVal]
      | undef => simp [jsonNodes, cborEncodeVal]
      | bool b => cases b <;> simp [jsonNodes, cborEncodeVal]
      | num m =>
        simp only [jsonNodes, cborEncodeVal]
        by_cases hpos : 0 ≤ m
        · rw [if_pos hpos]
          have := encodeHead_len_pos 0 m.toNat
          omega
        · rw [if_neg hpos]
          have := encodeHead_len_pos 1 (-m - 1).toNat
          omega
      | str s =>
        simp only [jsonNodes, cborEncodeVal, List.length_append]
        have := encodeHead_len_pos 3 s.length
        omega
      | bytes bs =>
        simp only [jsonNodes, cborEncodeVal, List.length_append]
        have := encodeHead_len_pos 2 bs.length
        omega
      | arr xs =>
        rw [jsonNodes, cborEncodeVal, List.length_append]
        have h1 : jsonNodesElems xs ≤ 2 * (cborEncodeElems xs).length := by
          apply ihE xs
          simp only [JSVal.arr.sizeOf_spec] at hsz
          omega
        have := encodeHead_len_pos 4 xs.length
        omega
      | obj fs =>
        rw [jsonNodes, cborEncodeVal, List.length_append]
        have h1 : jsonNodesFields fs ≤ 2 * (cborEncodeFields fs).length := by
          apply ihF fs
          simp only [JSVal.obj.sizeOf_spec] at hsz
          omega
        have := encodeHead_len_pos 5 fs.length
        omega
    · intro xs hsz
      cases xs with
      | nil => simp [jsonNodesElems, cborEncodeElems]
      | cons x xs' =>
        rw [jsonNodesElems, cborEncodeElems, List.length_append]
        have h1 : jsonNodes x + 1 ≤ 2 * (cborEncodeVal x).length := by
          apply ihV x
          simp only [List.cons.sizeOf_spec] at hsz
          omega
        have h2 : jsonNodesElems xs' ≤ 2 * (cborEncodeElems xs').length := by
          apply ihE xs'
          simp only [List.cons.sizeOf_spec] at hsz
          omega
        omega
    · intro fs hsz
      cases fs with
      | nil => simp [jsonNodesFields, cborEncodeFields]
      | cons kv fs' =>
        obtain ⟨key, v'⟩ := kv
        rw [jsonNodesFields, cborEncodeFields]
        simp only [List.length_append]
        have h1 : jsonNodes v' + 1 ≤ 2 * (cborEncodeVal v').length := by
          apply ihV v'
          simp only [List.cons.sizeOf_spec, Prod.mk.sizeOf_spec] at hsz
          omega
        have h2 : jsonNodesFields fs' ≤ 2 * (cborEncodeFields fs').length := by
          apply ihF fs'
          simp only [List.cons.sizeOf_spec] at hsz
          omega
        have := encodeHead_len_pos 3 key.length
        omega
    
/-- Round-trip of the modelled `cbor-x` `encode` and `decode` on the
tunnel's value domain. -/
theorem cborDecode_cborEncodeVal (v : JSVal) (hv : cborWF v = true) :
    cborDecode (cborEncodeVal v) = some v := by
  unfold cborDecode
  have hb : jsonNodes v + 1 ≤ 2 * (cborEncodeVal v).length := (cborLenAux (sizeOf v)).1 v le_rfl
  have h := (cborRoundtripAux (2 * (cborEncodeVal v).length + 1)).1 v [] hv (by omega)
  rw [List.append_nil] at h
  rw [h]

/-! ## JavaScript object field access -/

/-- `v[k]` on a JavaScript object value. -/
def jsGetField : JSVal → List Nat → Option JSVal
  | JSVal.obj fs, k => List.lookup k fs
  | _, _ => none

/-- `v[k]` when a string is expected (`undefined` otherwise). -/
def jsGetStr (v : JSVal) (k : List Nat) : Option (List Nat) :=
  match jsGetField v k with
  | some (JSVal.str s) => some s
  | _ => none

/-- `v[k]` when a number is expected. -/
def jsGetNum (v : JSVal) (k : List Nat) : Option Int :=
  match jsGetField v k with
  | some (JSVal.num n) => some n
  | _ => none

/-- `v[k]` when a byte array is expected. -/
def jsGetBytes (v : JSVal) (k : List Nat) : Option (List Nat) :=
  match jsGetField v k with
  | some (JSVal.bytes bs) => some bs
  | _ => none

/-- JavaScript truthiness of a value. -/
def jsTruthy : JSVal → Bool
  | JSVal.null => false
  | JSVal.undef => false
  | JSVal.bool b => b
  | JSVal.num n => decide (n ≠ 0)
  | JSVal.str s => decide (s ≠ [])
  | JSVal.bytes _ => true
  | JSVal.arr _ => true
  | JSVal.obj _ => true

/-! ## The tunnel client (`src/tunnel/client.ts`, class `RA`) -/

/-- The `enc` envelope of the client (browser) leg: nonce and ciphertext
are base64 text, the envelope itself travels as JSON. -/
structure TunnelEncrypted where
  nonce : List Nat
  ciphertext : List Nat

/-- An `http_response` inner message as the client reads it. -/
structure TunnelHTTPResponse where
  requestId : List Nat
  status : Int
  statusText : List Nat
  headers : List (List Nat × List Nat)
  body : List Nat
  error : Option (List Nat)

/-- An `http_request` inner message as the client builds it. -/
structure TunnelHTTPRequest where
  requestId : List Nat
  method : List Nat
  url : List Nat
  headers : List (List Nat × List Nat)
  body : Option (List Nat)

/-- `RA.encryptPayload`: serialize the payload with `JSON.stringify`,
seal it in a secretbox under the session key and a fresh random nonce
(taken as an argument in the embedding), and base64 both parts.  A
payload whose stringification is `undefined` makes `from_string` throw,
modelled as `none`. -/
def RA_encryptPayload (key nonce : List Nat) (payload : JSVal) : Option TunnelEncrypted :=
  match jsonStrVal payload with
  | none => none
  | some plaintext =>
    some ⟨b64encode nonce, b64encode (crypto_secretbox_easy plaintext nonce key)⟩

/-- `RA.decryptEnvelope`: base64-decode nonce and ciphertext, open the
secretbox, `JSON.parse` the plaintext.  Any failure throws, modelled as
`none`. -/
def RA_decryptEnvelope (key : List Nat) (env : TunnelEncrypted) : Option JSVal :=
  (b64decode env.nonce).bind fun nonce =>
  (b64decode env.ciphertext).bind fun ct =>
  (crypto_secretbox_open_easy ct nonce key).bind fun pt =>
  jsonParse pt

/-- The client session state of an `RA` instance (the fields of the
class that the control flow reads and writes; waiters are tracked by
their `requestId`, sub-connections by their `connectionId`). -/
structure RAState where
  wsOpen : Bool
  serverX25519PublicKey : Option (List Nat)
  symmetricKey : Option (List Nat)
  pendingRequests : List (List Nat)
  webSocketConnections : List (List Nat)
  connectionPromiseActive : Bool

/-- Observable effects of the client's handlers: settling a fetch
promise, delivering to a tunnel WebSocket, sending a frame, scheduling
the reconnect timer. -/
inductive ClientOutput where
  | resolveResponse : List Nat → TunnelHTTPResponse → ClientOutput
  | rejectResponse : List Nat → List Nat → ClientOutput
  | wsDeliverEvent : List Nat → JSVal → ClientOutput
  | wsDeliverMessage : List Nat → JSVal → ClientOutput
  | sendClientKx : List Nat → ClientOutput
  | scheduleReconnect : ClientOutput

/-- Read an `http_response` record off a decrypted JSON value the way
the client's untyped cast does: the `requestId` is looked up as a
string (a missing one makes the pending-map lookup miss), the remaining
fields are read leniently. -/
def clientReadResponse (v : JSVal) : Option TunnelHTTPResponse :=
  (jsGetStr v (bytesOfAscii "requestId")).map fun rid =>
    { requestId := rid,
      status := (jsGetNum v (bytesOfAscii "status")).getD 0,
      statusText := (jsGetStr v (bytesOfAscii "statusText")).getD [],
      headers := [],
      body := (jsGetStr v (bytesOfAscii "body")).getD [],
      error := jsGetStr v (bytesOfAscii "error") }

/-- `RA.handleTunnelResponse`: look up the waiter under the response's
`requestId`; if none, do nothing; otherwise remove it and settle it —
reject when `response.error` is truthy, resolve otherwise. -/
def RA_handleTunnelResponse (st : RAState) (resp : TunnelHTTPResponse) :
    RAState × List ClientOutput :=
  if st.pendingRequests.contains resp.requestId then
    ({ st with pendingRequests := st.pendingRequests.filter (fun id => id ≠ resp.requestId) },
     match resp.error with
     | some e =>
       if e ≠ [] then [ClientOutput.rejectResponse resp.requestId e]
       else [ClientOutput.resolveResponse resp.requestId resp]
     | none => [ClientOutput.resolveResponse resp.requestId resp])
  else (st, [])

/-- The 30-second fetch timer firing for `requestId` (the callback in
`RA.fetch`): if the waiter is still pending, remove it and reject with
the request-timeout error. -/
def RA_fireTimeout (st : RAState) (rid : List Nat) : RAState × List ClientOutput :=
  if st.pendingRequests.contains rid then
    ({ st with pendingRequests := st.pendingRequests.filter (fun id => id ≠ rid) },
     [ClientOutput.rejectResponse rid (bytesOfAscii "Request timeout")])
  else (st, [])

/-- `this.ws.onclose`: clear the connection promise and schedule a
reconnect; nothing else is touched (in particular the pending waiters
and sub-connections survive). -/
def RA_handleClose (st : RAState) : RAState × List ClientOutput :=
  ({ st with wsOpen := false, connectionPromiseActive := false },
   [ClientOutput.scheduleReconnect])

/-- The body computation in `RA.fetch`: `if (init?.body)` is a JavaScript
truthiness test; string bodies pass through, any other truthy body is
`JSON.stringify`ed, falsy bodies leave the field `undefined`. -/
def RA_fetchBody (b : Option JSVal) : Option (List Nat) :=
  match b with
  | none => none
  | some v =>
    if jsTruthy v then
      match v with
      | JSVal.str s => some s
      | _ => jsonStrVal v
    else none

/-- The `http_request` record `RA.fetch` sends for given inputs. -/
def RA_buildTunnelRequest (rid method url : List Nat)
    (headers : List (List Nat × List Nat)) (body : Option JSVal) : TunnelHTTPRequest :=
  { requestId := rid, method := method, url := url, headers := headers,
    body := RA_fetchBody body }

/-- Events arriving at the client session: a raw WebSocket frame, the
socket closing, a fetch timer firing. -/
inductive ClientEvent where
  | message : List Nat → ClientEvent
  | closed : ClientEvent
  | timeoutFired : List Nat → ClientEvent

/-- `this.ws.onmessage`: `JSON.parse` the frame; on `server_kx` install a
fresh symmetric key (the keygen output is the `freshKey` argument) and
reply with `client_kx`; on `enc` decrypt and dispatch by inner type;
anything else (or any failure) is swallowed by the catch. -/
def RA_handleMessage (freshKey : List Nat) (st : RAState) (data : List Nat) :
    RAState × List ClientOutput :=
  match jsonParse data with
  | none => (st, [])
  | some msg =>
    if jsGetStr msg (bytesOfAscii "type") = some (bytesOfAscii "server_kx") then
      match jsGetStr msg (bytesOfAscii "x25519PublicKey") with
      | none => (st, [])
      | some pubB64 =>
        match b64decode pubB64 with
        | none => (st, [])
        | some serverPub =>
          ({ st with serverX25519PublicKey := some serverPub,
                     symmetricKey := some freshKey,
                     connectionPromiseActive := false },
           [ClientOutput.sendClientKx freshKey])
    else if jsGetStr msg (bytesOfAscii "type") = some (bytesOfAscii "enc") then
      match st.symmetricKey with
      | none => (st, [])
      | some key =>
        match jsGetStr msg (bytesOfAscii "nonce"), jsGetStr msg (bytesOfAscii "ciphertext") with
        | some nb, some cb =>
          match RA_decryptEnvelope key ⟨nb, cb⟩ with
          | none => (st, [])
          | some decrypted =>
            if jsGetStr decrypted (bytesOfAscii "type") = some (bytesOfAscii "http_response") then
              match clientReadResponse decrypted with
              | some resp => RA_handleTunnelResponse st resp
              | none => (st, [])
            else if jsGetStr decrypted (bytesOfAscii "type")
                = some (bytesOfAscii "ws_event") then
              match jsGetStr decrypted (bytesOfAscii "connectionId") with
              | some cid =>
                if st.webSocketConnections.contains cid then
                  (st, [ClientOutput.wsDeliverEvent cid decrypted])
                else (st, [])
              | none => (st, [])
            else if jsGetStr decrypted (bytesOfAscii "type")
                = some (bytesOfAscii "ws_message") then
              match jsGetStr decrypted (bytesOfAscii "connectionId") with
              | some cid =>
                if st.webSocketConnections.contains cid then
                  (st, [ClientOutput.wsDeliverMessage cid decrypted])
                else (st, [])
              | none => (st, [])
            else (st, [])
        | _, _ => (st, [])
    else (st, [])

/-- One client event step. -/
def clientStep (freshKey : List Nat) (st : RAState) (e : ClientEvent) :
    RAState × List ClientOutput :=
  match e with
  | ClientEvent.message data => RA_handleMessage freshKey st data
  | ClientEvent.closed => RA_handleClose st
  | ClientEvent.timeoutFired rid => RA_fireTimeout st rid

/-- Whether processing event `e` in state `st` settles the waiter of
`rid`: either an `http_response` frame for it, or its own timer. -/
def eventTouches (st : RAState) (e : ClientEvent)
    (rid : List Nat) : Bool :=
  match e with
  | ClientEvent.timeoutFired rid' => rid' = rid
  | ClientEvent.closed => false
  | ClientEvent.message data =>
    match jsonParse data with
    | none => false
    | some msg =>
      if jsGetStr msg (bytesOfAscii "type") = some (bytesOfAscii "enc") then
        match st.symmetricKey with
        | none => false
        | some key =>
          match jsGetStr msg (bytesOfAscii "nonce"),
              jsGetStr msg (bytesOfAscii "ciphertext") with
          | some nb, some cb =>
            match RA_decryptEnvelope key ⟨nb, cb⟩ with
            | none => false
            | some decrypted =>
              jsGetStr decrypted (bytesOfAscii "type")
                  = some (bytesOfAscii "http_response")
                && jsGetStr decrypted (bytesOfAscii "requestId") = some rid
          | _, _ => false
      else false

/-- Run a sequence of client events. -/
def clientProcessTrace (freshKey : List Nat) (st : RAState) :
    List ClientEvent → RAState
  | [] => st
  | e :: evs => clientProcessTrace freshKey (clientStep freshKey st e).1 evs

/-- No event of the trace, processed at its own point, settles `rid`. -/
def noSettleFor (freshKey : List Nat) (rid : List Nat) : RAState → List ClientEvent → Prop
  | _, List.nil => True
  | st, e :: evs =>
    eventTouches st e rid = false ∧
      noSettleFor freshKey rid (clientStep freshKey st e).1 evs

/-! ## The tunnel server (`TunnelServer`) -/

/-- Assoc-map helpers with JavaScript `Map` semantics (at most one entry
per key: `set` replaces, `delete` removes). -/
def mapInsert {α β : Type} [DecidableEq α] (k : α) (v : β) (m : List (α × β)) :
    List (α × β) :=
  (k, v) :: m.filter (fun e => ¬ e.1 = k)

def mapErase {α β : Type} [DecidableEq α] (k : α) (m : List (α × β)) : List (α × β) :=
  m.filter (fun e => ¬ e.1 = k)

/-- The per-relay state of `TunnelServer`: the symmetric key map keyed
by control socket, and the sub-connection map from `connectionId` to the
control socket that owns it (the `mockWs` callbacks are modelled as
outputs). -/
structure TunnelServerState where
  symmetricKeyBySocket : List (Nat × List Nat)
  webSocketConnections : List (List Nat × Nat)

/-- The `enc` envelope on the server (CBOR) leg: raw byte fields. -/
structure ControlChannelEncryptedMessage where
  nonce : List Nat
  ciphertext : List Nat

/-- Observable effects of the server's message handling: deliveries into
the host application (via the mock WebSocket server), dispatch of a
tunneled HTTP request into Express, and encrypted sends back to the
client. -/
inductive ServerOutput where
  | hostMessage : List Nat → JSVal → ServerOutput
  | hostClose : List Nat → Option Int → Option (List Nat) → ServerOutput
  | wssAddClient : List Nat → ServerOutput
  | wssDeleteClient : List Nat → ServerOutput
  | appDispatch : Nat → JSVal → ServerOutput
  | sendEnc : Nat → JSVal → ServerOutput

/-- Modelled from the spec: `typeguards.ts` is not under `src/`; per the
spec every wire and inner message carries a `type` discriminator, so the
guards check it together with the fields their handlers read. -/
def isControlChannelKXConfirm (v : JSVal) : Bool :=
  jsGetStr v (bytesOfAscii "type") = some (bytesOfAscii "client_kx")
    && (jsGetStr v (bytesOfAscii "sealedSymmetricKey")).isSome

/-- Modelled from the spec: the `enc` envelope guard (spec §4.5). -/
def isControlChannelEncryptedMessage (v : JSVal) : Bool :=
  jsGetStr v (bytesOfAscii "type") = some (bytesOfAscii "enc")
    && (jsGetBytes v (bytesOfAscii "nonce")).isSome
    && (jsGetBytes v (bytesOfAscii "ciphertext")).isSome

/-- Modelled from the spec: inner-message guards by discriminator. -/
def isRAEncryptedHTTPRequest (v : JSVal) : Bool :=
  jsGetStr v (bytesOfAscii "type") = some (bytesOfAscii "http_request")
    && (jsGetStr v (bytesOfAscii "requestId")).isSome

def isRAEncryptedClientConnectEvent (v : JSVal) : Bool :=
  jsGetStr v (bytesOfAscii "type") = some (bytesOfAscii "ws_client_connect")
    && (jsGetStr v (bytesOfAscii "connectionId")).isSome

def isRAEncryptedWSMessage (v : JSVal) : Bool :=
  jsGetStr v (bytesOfAscii "type") = some (bytesOfAscii "ws_message")
    && (jsGetStr v (bytesOfAscii "connectionId")).isSome

def isRAEncryptedClientCloseEvent (v : JSVal) : Bool :=
  jsGetStr v (bytesOfAscii "type") = some (bytesOfAscii "ws_client_close")
    && (jsGetStr v (bytesOfAscii "connectionId")).isSome

/-- `TunnelServer.#encryptForSocket` for a socket whose key is `key`:
CBOR-encode the payload and seal it with a fresh nonce. -/
def encryptForSocket (key nonce : List Nat) (payload : JSVal) :
    ControlChannelEncryptedMessage :=
  ⟨nonce, crypto_secretbox_easy (cborEncodeVal payload) nonce key⟩

/-- `TunnelServer.#decryptEnvelopeForSocket` for a socket whose key is
`key`: open the secretbox and CBOR-decode the plaintext. -/
def decryptEnvelopeForSocket (key : List Nat) (env : ControlChannelEncryptedMessage) :
    Option JSVal :=
  (crypto_secretbox_open_easy env.ciphertext env.nonce key).bind fun pt =>
  cborDecode pt

/-- `TunnelServer.#handleTunnelWebSocketMessage`: deliver to the mock
socket when the connection is tracked, otherwise do nothing. -/
def handleTunnelWebSocketMessage (st : TunnelServerState) (connectionId : List Nat)
    (data : JSVal) : TunnelServerState × List ServerOutput :=
  match List.lookup connectionId st.webSocketConnections with
  | some _ => (st, [ServerOutput.hostMessage connectionId data])
  | none => (st, [])

/-- `TunnelServer.#handleTunnelWebSocketClose`: when tracked, emit the
close to the host, drop the mock from the mock server, and delete the
connection from the map; otherwise do nothing. -/
def handleTunnelWebSocketClose (st : TunnelServerState) (connectionId : List Nat)
    (code : Option Int) (reason : Option (List Nat)) :
    TunnelServerState × List ServerOutput :=
  match List.lookup connectionId st.webSocketConnections with
  | some _ =>
    ({ st with webSocketConnections := mapErase connectionId st.webSocketConnections },
     [ServerOutput.hostClose connectionId code reason,
      ServerOutput.wssDeleteClient connectionId])
  | none => (st, [])

/-- `TunnelServer.#handleTunnelWebSocketConnect`: track the connection,
register the mock with the mock server, and confirm `open` to the
client. -/
def handleTunnelWebSocketConnect (st : TunnelServerState) (sock : Nat)
    (connectionId : List Nat) : TunnelServerState × List ServerOutput :=
  ({ st with webSocketConnections := mapInsert connectionId sock st.webSocketConnections },
   [ServerOutput.wssAddClient connectionId,
    ServerOutput.sendEnc sock
      (JSVal.obj [(bytesOfAscii "type", JSVal.str (bytesOfAscii "ws_event")),
        (bytesOfAscii "connectionId", JSVal.str connectionId),
        (bytesOfAscii "eventType", JSVal.str (bytesOfAscii "open"))])])

/-- The `http_response` the server sends when the host application
fails, in all three error sites of `#handleTunnelHttpRequest` and its
dispatch: status 500, empty body, `error` carrying the message. -/
def errorHttpResponse (requestId msg : List Nat) : TunnelHTTPResponse :=
  { requestId := requestId, status := 500,
    statusText := bytesOfAscii "Internal Server Error",
    headers := [], body := [], error := some msg }

/-- The JSON value of an error `http_response` on the wire. -/
def errorHttpResponseVal (requestId msg : List Nat) : JSVal :=
  JSVal.obj [(bytesOfAscii "type", JSVal.str (bytesOfAscii "http_response")),
    (bytesOfAscii "requestId", JSVal.str requestId),
    (bytesOfAscii "status", JSVal.num 500),
    (bytesOfAscii "statusText", JSVal.str (bytesOfAscii "Internal Server Error")),
    (bytesOfAscii "headers", JSVal.obj []),
    (bytesOfAscii "body", JSVal.str []),
    (bytesOfAscii "error", JSVal.str msg)]

/-- Dispatch of a decrypted inner message (the tail of the intercepted
`emit` handler): route by guard to the four tunnel handlers; anything
else is discarded. -/
def serverDispatchInner (st : TunnelServerState) (sock : Nat) (inner : JSVal) :
    TunnelServerState × List ServerOutput :=
  if isRAEncryptedHTTPRequest inner then
    (st, [ServerOutput.appDispatch sock inner])
  else if isRAEncryptedClientConnectEvent inner then
    handleTunnelWebSocketConnect st sock
      ((jsGetStr inner (bytesOfAscii "connectionId")).getD [])
  else if isRAEncryptedWSMessage inner then
    handleTunnelWebSocketMessage st
      ((jsGetStr inner (bytesOfAscii "connectionId")).getD [])
      ((jsGetField inner (bytesOfAscii "data")).getD JSVal.undef)
  else if isRAEncryptedClientCloseEvent inner then
    handleTunnelWebSocketClose st
      ((jsGetStr inner (bytesOfAscii "connectionId")).getD [])
      (jsGetNum inner (bytesOfAscii "code"))
      (jsGetStr inner (bytesOfAscii "reason"))
  else (st, [])

/-- The intercepted `message` handling of a control socket (the `emit`
override in `#setupControlChannel`): the CBOR-decoded frame (`none` for
invalid CBOR) is checked for `client_kx` first — a key is installed only
if none is present, `sealOpen` standing for base64-decoding and
`crypto_box_seal_open` under the server's X25519 key pair (`none` on
failure); before the handshake everything else is dropped; after it,
only `enc` envelopes that decrypt under the socket key are dispatched. -/
def serverHandleMessage (sealOpen : List Nat → Option (List Nat))
    (st : TunnelServerState) (sock : Nat) (m : Option JSVal) :
    TunnelServerState × List ServerOutput :=
  match m with
  | none => (st, [])
  | some v =>
    if isControlChannelKXConfirm v then
      match List.lookup sock st.symmetricKeyBySocket with
      | some _ => (st, [])
      | none =>
        match (jsGetStr v (bytesOfAscii "sealedSymmetricKey")).bind sealOpen with
        | some opened =>
          ({ st with symmetricKeyBySocket := mapInsert sock opened st.symmetricKeyBySocket },
           [])
        | none => (st, [])
    else
      match List.lookup sock st.symmetricKeyBySocket with
      | none => (st, [])
      | some key =>
        if ¬ isControlChannelEncryptedMessage v then (st, [])
        else
          match decryptEnvelopeForSocket key
              ⟨(jsGetBytes v (bytesOfAscii "nonce")).getD [],
               (jsGetBytes v (bytesOfAscii "ciphertext")).getD []⟩ with
          | none => (st, [])
          | some inner => serverDispatchInner st sock inner

/-- The control socket `close` handler in `#setupControlChannel`: drop
the socket's symmetric key, emit close 1006 "tunnel closed" to every
sub-connection owned by the socket, drop their mocks from the mock
server, and remove them from the connection map. -/
def serverHandleSocketClose (st : TunnelServerState) (sock : Nat) :
    TunnelServerState × List ServerOutput :=
  let victims := st.webSocketConnections.filter (fun e => e.2 = sock)
  ({ symmetricKeyBySocket := mapErase sock st.symmetricKeyBySocket,
     webSocketConnections := st.webSocketConnections.filter (fun e => ¬ e.2 = sock) },
   victims.flatMap (fun e =>
     [ServerOutput.hostClose e.1 (some 1006) (some (bytesOfAscii "tunnel closed")),
      ServerOutput.wssDeleteClient e.1]))

/-! ## Upgrade routing (the `TunnelServer` constructor) -/

/-- What the relay does with an HTTP upgrade request. -/
inductive UpgradeAction where
  | control : UpgradeAction
  | destroy : UpgradeAction
deriving DecidableEq

/-- The `upgrade` listener: `req.url || ""`, then
`url.startsWith("/__ra__")` routes to the control channel, anything
else destroys the raw socket. -/
def routeUpgrade (url : Option (List Char)) : UpgradeAction :=
  let u := url.getD []
  if List.isPrefixOf ("/__ra__".toList) u then UpgradeAction.control
  else UpgradeAction.destroy

/-! ## Map and list lemmas for the state machines -/

theorem lookup_mapInsert_self {α β : Type} [DecidableEq α] [BEq α] [LawfulBEq α] (k : α) (v : β)
    (m : List (α × β)) : List.lookup k (mapInsert k v m) = some v := by
  simp [mapInsert, List.lookup]

theorem lookup_mapInsert_other {α β : Type} [DecidableEq α] [BEq α] [LawfulBEq α] (k k' : α) (v : β)
    (m : List (α × β)) (h : k ≠ k') :
    List.lookup k (mapInsert k' v m) = List.lookup k m := by
  have hb : (k == k') = false := by simpa using h
  simp only [mapInsert, List.lookup, hb]
  induction m with
  | nil => simp
  | cons e rest ih =>
    by_cases he : e.1 = k'
    · rw [List.filter_cons_of_neg (by simpa using he)]
      have : (k == e.1) = false := by
        rw [he]
        exact hb
      rw [List.lookup]
      simp only [this]
      exact ih
    · rw [List.filter_cons_of_pos (by simpa using he)]
      rw [List.lookup, List.lookup]
      cases hb : (k == e.1) with
      | true => rfl
      | false => exact ih

theorem lookup_eq_none_of_not_mem_fst {α β : Type} [DecidableEq α] [BEq α] [LawfulBEq α] (k : α)
    (m : List (α × β)) (h : k ∉ m.map Prod.fst) : List.lookup k m = none := by
  induction m with
  | nil => rfl
  | cons e rest ih =>
    simp only [List.map_cons, List.mem_cons] at h
    rw [List.lookup]
    have : (k == e.1) = false := by
      simp only [beq_eq_false_iff_ne, ne_eq]
      intro hk
      exact h (Or.inl hk)
    simp only [this]
    exact ih (fun hm => h (Or.inr hm))

theorem lookup_filter_none {α β : Type} [DecidableEq α] [BEq α] [LawfulBEq α] (k : α) (m : List (α × β))
    (p : α × β → Bool) (h : List.lookup k m = none) :
    List.lookup k (m.filter p) = none := by
  induction m with
  | nil => rfl
  | cons e rest ih =>
    rw [List.lookup] at h
    cases hb : (k == e.1) with
    | true =>
      rw [hb] at h
      exact absurd h (by simp)
    | false =>
      rw [hb] at h
      by_cases hp : p e = true
      · rw [List.filter_cons_of_pos hp, List.lookup, hb]
        exact ih h
      · rw [List.filter_cons_of_neg (by simpa using hp)]
        exact ih h

theorem lookup_mapErase_self {α β : Type} [DecidableEq α] [BEq α] [LawfulBEq α] (k : α) (m : List (α × β)) :
    List.lookup k (mapErase k m) = none := by
  unfold mapErase
  induction m with
  | nil => rfl
  | cons e rest ih =>
    by_cases he : e.1 = k
    · rw [List.filter_cons_of_neg (by simpa using he)]
      exact ih
    · rw [List.filter_cons_of_pos (by simpa using he), List.lookup]
      have : (k == e.1) = false := by
        simp only [beq_eq_false_iff_ne, ne_eq]
        intro hk
        exact he hk.symm
      simp only [this]
      exact ih

theorem mem_of_lookup_eq_some {α β : Type} [DecidableEq α] [BEq α] [LawfulBEq α] (k : α) (v : β)
    (m : List (α × β)) (h : List.lookup k m = some v) : (k, v) ∈ m := by
  induction m with
  | nil => simp [List.lookup] at h
  | cons e rest ih =>
    rw [List.lookup] at h
    cases hb : (k == e.1) with
    | true =>
      rw [hb] at h
      have hk : k = e.1 := by simpa using hb
      have hv : v = e.2 := by
        injection h with h'
        exact h'.symm
      have hkv : (k, v) = e := Prod.ext hk hv
      rw [hkv]
      exact List.mem_cons_self e rest
    | false =>
      rw [hb] at h
      exact List.mem_cons_of_mem _ (ih h)

theorem lookup_filter_out {α β : Type} [DecidableEq α] [BEq α] [LawfulBEq α] [DecidableEq β] (k : α) (v : β)
    (m : List (α × β)) (hnd : (m.map Prod.fst).Nodup)
    (h : List.lookup k m = some v) :
    List.lookup k (m.filter (fun e => ¬ e.2 = v)) = none := by
  induction m with
  | nil => simp [List.lookup] at h
  | cons e rest ih =>
    simp only [List.map_cons, List.nodup_cons] at hnd
    rw [List.lookup] at h
    cases hb : (k == e.1) with
    | true =>
      rw [hb] at h
      have hk : k = e.1 := by simpa using hb
      have hv : e.2 = v := by
        injection h with h'
      rw [List.filter_cons_of_neg (by simp [hv])]
      apply lookup_eq_none_of_not_mem_fst
      rw [hk]
      intro hm
      rcases List.mem_map.mp hm with ⟨x, hx, hfst⟩
      exact hnd.1 (by rw [← hfst]; exact List.mem_map_of_mem Prod.fst (List.mem_of_mem_filter hx))
    | false =>
      rw [hb] at h
      by_cases hp : ¬ e.2 = v
      · rw [List.filter_cons_of_pos (by simpa using hp), List.lookup, hb]
        exact ih hnd.2 h
      · rw [List.filter_cons_of_neg (by simpa using hp)]
        exact ih hnd.2 h

/-! ## Further dispatch lemmas -/

theorem serverDispatchInner_keys (st : TunnelServerState) (sock : Nat) (inner : JSVal) :
    ((serverDispatchInner st sock inner).1).symmetricKeyBySocket
      = st.symmetricKeyBySocket := by
  unfold serverDispatchInner handleTunnelWebSocketConnect handleTunnelWebSocketMessage
    handleTunnelWebSocketClose
  repeat' split
  all_goals rfl

/-! ## Claims C1, C2, C6, C7 -/

/-- C1: for every control socket of the tunnel server, a symmetric key is
installed by at most one `client_kx` message: once a key is stored for a
socket, every further message (a second `client_kx` included) leaves the
stored key unchanged, and on a socket with no key the first `client_kx`
whose sealed key opens installs exactly the opened key. -/
theorem claim_C1 (sealOpen : List Nat → Option (List Nat))
    (st : TunnelServerState) (sock : Nat) (k : List Nat) (m : Option JSVal)
    (hk : List.lookup sock st.symmetricKeyBySocket = some k) :
    List.lookup sock ((serverHandleMessage sealOpen st sock m).1).symmetricKeyBySocket
      = some k ∧
    ∀ st₀ : TunnelServerState, ∀ v : JSVal, ∀ opened : List Nat,
      List.lookup sock st₀.symmetricKeyBySocket = none →
      isControlChannelKXConfirm v = true →
      (jsGetStr v (bytesOfAscii "sealedSymmetricKey")).bind sealOpen = some opened →
      List.lookup sock
          ((serverHandleMessage sealOpen st₀ sock (some v)).1).symmetricKeyBySocket
        = some opened := by
  constructor
  · cases m with
    | none => exact hk
    | some v =>
      simp only [serverHandleMessage]
      repeat' split
      all_goals
        first
          | exact hk
          | (rw [serverDispatchInner_keys]; exact hk)
          | simp_all
  · intro st₀ v opened h0 hkx hop
    simp only [serverHandleMessage]
    rw [if_pos hkx, h0, hop]
    exact lookup_mapInsert_self sock opened _

def exServSt : TunnelServerState := ⟨[(1, [5, 6])], []⟩

def exSealOpen : List Nat → Option (List Nat) := fun bs => some bs

def exKxVal : JSVal :=
  JSVal.obj [(bytesOfAscii "type", JSVal.str (bytesOfAscii "client_kx")),
    (bytesOfAscii "sealedSymmetricKey", JSVal.str [9, 9])]

theorem claim_C1_witness :
    List.lookup 1 ((serverHandleMessage exSealOpen exServSt 1
        (some exKxVal)).1).symmetricKeyBySocket = some [5, 6] :=
  (claim_C1 exSealOpen exServSt 1 [5, 6] (some exKxVal) rfl).1

/-- Whether an inbound control-channel frame is a well-formed encrypted
envelope (`none` stands for a frame that did not CBOR-decode). -/
def messageIsEncryptedEnvelope : Option JSVal → Bool
  | some v => isControlChannelEncryptedMessage v
  | none => false

/-- Whether an inbound control-channel frame is a `client_kx`. -/
def messageIsClientKx : Option JSVal → Bool
  | some v => isControlChannelKXConfirm v
  | none => false

/-- C2: once a symmetric key is installed on a control socket, any inbound
message that is not an encrypted envelope is dropped with no state change
and no output (so no plaintext message ever reaches a handler); and while
no key is installed, any message other than `client_kx` is dropped. -/
theorem claim_C2 (sealOpen : List Nat → Option (List Nat))
    (st : TunnelServerState) (sock : Nat) (m : Option JSVal) :
    ((∃ k, List.lookup sock st.symmetricKeyBySocket = some k) →
      messageIsEncryptedEnvelope m = false →
      serverHandleMessage sealOpen st sock m = (st, [])) ∧
    (List.lookup sock st.symmetricKeyBySocket = none →
      messageIsClientKx m = false →
      serverHandleMessage sealOpen st sock m = (st, [])) := by
  constructor
  · rintro ⟨k, hk⟩ henc
    cases m with
    | none => rfl
    | some v =>
      simp only [serverHandleMessage]
      by_cases hkx : isControlChannelKXConfirm v = true
      · rw [if_pos hkx, hk]
      · rw [if_neg hkx]
        simp only [hk]
        simp only [messageIsEncryptedEnvelope] at henc
        rw [if_pos (by simp [henc])]
  · intro h0 hkx
    cases m with
    | none => rfl
    | some v =>
      simp only [messageIsClientKx] at hkx
      simp only [serverHandleMessage]
      rw [if_neg (by simp [hkx]), h0]

theorem claim_C2_witness :
    serverHandleMessage exSealOpen exServSt 1 (some (JSVal.str [104, 105]))
      = (exServSt, []) :=
  (claim_C2 exSealOpen exServSt 1 (some (JSVal.str [104, 105]))).1 ⟨[5, 6], rfl⟩ rfl

/-- C6 counterexample: the upgrade listener tests
`url.startsWith("/__ra__")`, so the URL `/__ra__evil` — which is not the
control path `/__ra__` — is still handed to the control-channel WebSocket
server instead of having its socket destroyed. -/
theorem claim_C6_counterexample :
    routeUpgrade (some ("/__ra__evil".toList)) = UpgradeAction.control ∧
    "/__ra__evil".toList ≠ "/__ra__".toList := by
  constructor
  · rfl
  · decide

/-- C6 (amended): an upgrade request is handed to the control-channel
WebSocket server exactly when its URL (the empty string when absent)
starts with `/__ra__`; for every URL not starting with that prefix the
raw socket is destroyed. -/
theorem claim_C6 (url : Option (List Char)) :
    (List.isPrefixOf ("/__ra__".toList) (url.getD []) = true →
      routeUpgrade url = UpgradeAction.control) ∧
    (¬ List.isPrefixOf ("/__ra__".toList) (url.getD []) = true →
      routeUpgrade url = UpgradeAction.destroy) := by
  constructor
  · intro h
    simp only [routeUpgrade]
    rw [if_pos h]
  · intro h
    simp only [routeUpgrade]
    rw [if_neg h]

theorem claim_C6_witness :
    routeUpgrade (some ("/other".toList)) = UpgradeAction.destroy :=
  (claim_C6 (some ("/other".toList))).2 (by decide)

/-- C7: handling `ws_client_close` for a tracked `connectionId` emits the
close to the host socket and deletes the connection from the map; with the
connection absent, any later `ws_message` or `ws_client_close` for it
changes nothing and delivers nothing; and dispatching any inner message
that does not reconnect that id keeps it absent. -/
theorem claim_C7 (st : TunnelServerState) (cid : List Nat) (code : Option Int)
    (reason : Option (List Nat)) (sock : Nat)
    (hc : List.lookup cid st.webSocketConnections = some sock) :
    ServerOutput.hostClose cid code reason
        ∈ (handleTunnelWebSocketClose st cid code reason).2 ∧
    List.lookup cid
        ((handleTunnelWebSocketClose st cid code reason).1).webSocketConnections
      = none ∧
    (∀ st₂ : TunnelServerState, ∀ data : JSVal,
      List.lookup cid st₂.webSocketConnections = none →
      handleTunnelWebSocketMessage st₂ cid data = (st₂, [])) ∧
    (∀ st₂ : TunnelServerState, ∀ code₂ : Option Int, ∀ reason₂ : Option (List Nat),
      List.lookup cid st₂.webSocketConnections = none →
      handleTunnelWebSocketClose st₂ cid code₂ reason₂ = (st₂, [])) ∧
    (∀ st₂ : TunnelServerState, ∀ sock₂ : Nat, ∀ inner : JSVal,
      List.lookup cid st₂.webSocketConnections = none →
      (isRAEncryptedClientConnectEvent inner = true →
        (jsGetStr inner (bytesOfAscii "connectionId")).getD [] ≠ cid) →
      List.lookup cid
          ((serverDispatchInner st₂ sock₂ inner).1).webSocketConnections = none) := by
  refine ⟨?_, ?_, ?_, ?_, ?_⟩
  · unfold handleTunnelWebSocketClose
    rw [hc]
    simp
  · simp only [handleTunnelWebSocketClose, hc]
    exact lookup_mapErase_self cid _
  · intro st₂ data h
    unfold handleTunnelWebSocketMessage
    rw [h]
  · intro st₂ code₂ reason₂ h
    unfold handleTunnelWebSocketClose
    rw [h]
  · intro st₂ sock₂ inner h hconn
    simp only [serverDispatchInner]
    split
    · exact h
    · split
      · rename_i hc2
        unfold handleTunnelWebSocketConnect
        exact (lookup_mapInsert_other cid _ sock₂ _
          (fun he => hconn hc2 he.symm)).trans h
      · split
        · unfold handleTunnelWebSocketMessage
          split <;> exact h
        · split
          · unfold handleTunnelWebSocketClose
            split
            · exact lookup_filter_none cid _ _ h
            · exact h
          · exact h

def exConnSt : TunnelServerState := ⟨[], [([99], 7)]⟩

theorem claim_C7_witness :
    List.lookup [99]
        ((handleTunnelWebSocketClose exConnSt [99] (some 1000) none).1).webSocketConnections
      = none :=
  (claim_C7 exConnSt [99] (some 1000) none 7 rfl).2.1

/-! ## Claims C3, C5, C10 -/

theorem contains_filter_ne {α : Type} [BEq α] [LawfulBEq α] [DecidableEq α]
    (l : List α) (x y : α) (h : y ≠ x) :
    (l.filter (fun id => id ≠ x)).contains y = l.contains y := by
  induction l with
  | nil => rfl
  | cons a t ih =>
    by_cases ha : a ≠ x
    · rw [List.filter_cons_of_pos (by simpa using ha)]
      rw [List.contains_cons, List.contains_cons, ih]
    · rw [List.filter_cons_of_neg (by simpa using ha)]
      have hax : a = x := by simpa using ha
      rw [List.contains_cons]
      have hya : (y == a) = false := by
        simp only [beq_eq_false_iff_ne, ne_eq]
        intro hy
        exact h (hy.trans hax)
      simp [hya, ih]
      exact fun _ => h

def exC3St : RAState := ⟨true, none, some (List.replicate 32 0), [[114, 49]], [], true⟩

/-- C3 counterexample: `this.ws.onclose` only clears the connection
promise and schedules a reconnect — with the fetch waiter for request id
`r1` pending, closing the socket rejects nothing (no output settles a
waiter) and the waiter stays in the pending map, contradicting "every
pending HTTP fetch waiter in the session is rejected with Disconnected". -/
theorem claim_C3_counterexample :
    (RA_handleClose exC3St).2 = [ClientOutput.scheduleReconnect] ∧
    (RA_handleClose exC3St).1.pendingRequests = [[114, 49]] :=
  ⟨rfl, rfl⟩

/-- C3 (amended): when a control socket closes, the server emits close
1006 "tunnel closed" to every tracked sub-connection of that socket and
removes it from the connection map; the client for its part only clears
its connection promise and schedules a reconnect — its pending fetch
waiters are left pending (nothing rejects them with Disconnected). -/
theorem claim_C3 (st : TunnelServerState) (sock : Nat) (cid : List Nat)
    (hnd : (st.webSocketConnections.map Prod.fst).Nodup)
    (hc : List.lookup cid st.webSocketConnections = some sock) (cst : RAState) :
    ServerOutput.hostClose cid (some 1006) (some (bytesOfAscii "tunnel closed"))
        ∈ (serverHandleSocketClose st sock).2 ∧
    List.lookup cid ((serverHandleSocketClose st sock).1).webSocketConnections = none ∧
    (RA_handleClose cst).1.pendingRequests = cst.pendingRequests ∧
    (RA_handleClose cst).2 = [ClientOutput.scheduleReconnect] := by
  refine ⟨?_, ?_, rfl, rfl⟩
  · have hmem : (cid, sock) ∈ st.webSocketConnections :=
      mem_of_lookup_eq_some cid sock _ hc
    have hv : (cid, sock) ∈ st.webSocketConnections.filter (fun e => e.2 = sock) :=
      List.mem_filter.mpr ⟨hmem, by simp⟩
    exact List.mem_flatMap.mpr ⟨(cid, sock), hv, by simp⟩
  · exact lookup_filter_out cid sock _ hnd hc

def exC3ServSt : TunnelServerState := ⟨[(1, [5])], [([99], 1)]⟩

theorem claim_C3_witness :
    ServerOutput.hostClose [99] (some 1006) (some (bytesOfAscii "tunnel closed"))
        ∈ (serverHandleSocketClose exC3ServSt 1).2 :=
  (claim_C3 exC3ServSt 1 [99] (by decide) rfl exC3St).1

def exC5St : RAState := ⟨true, none, none, [[114, 49]], [], false⟩

/-- C5 counterexample: the server's error response for an error whose
message is empty still has the `error` field set (`some []`), yet the
client's `if (response.error)` truthiness test fails on the empty string,
so the waiter registered under the request id is resolved, not rejected —
contradicting "an http_response with the error field set causes exactly
the waiter registered under that requestId to reject". -/
theorem claim_C5_counterexample :
    (errorHttpResponse [114, 49] []).error = some [] ∧
    (RA_handleTunnelResponse exC5St (errorHttpResponse [114, 49] [])).2
      = [ClientOutput.resolveResponse [114, 49] (errorHttpResponse [114, 49] [])] :=
  ⟨rfl, rfl⟩

/-- C5 (amended): the server's application-error response carries status
500 and the error message; on the client, an `http_response` whose
`error` field holds a non-empty message rejects exactly the waiter
registered under its request id, and the pending state of every other
waiter is untouched. -/
theorem claim_C5 (st : RAState) (rid msg : List Nat)
    (hp : st.pendingRequests.contains rid = true)
    (hmsg : msg ≠ []) :
    (errorHttpResponse rid msg).status = 500 ∧
    (errorHttpResponse rid msg).error = some msg ∧
    (RA_handleTunnelResponse st (errorHttpResponse rid msg)).2
      = [ClientOutput.rejectResponse rid msg] ∧
    ∀ rid' : List Nat, rid' ≠ rid →
      (RA_handleTunnelResponse st (errorHttpResponse rid msg)).1.pendingRequests.contains rid'
        = st.pendingRequests.contains rid' := by
  refine ⟨rfl, rfl, ?_, ?_⟩
  · simp only [RA_handleTunnelResponse, errorHttpResponse, hp]
    rw [if_pos trivial]
    simp [hmsg]
  · intro rid' hne
    simp only [RA_handleTunnelResponse, errorHttpResponse, hp]
    rw [if_pos trivial]
    exact contains_filter_ne st.pendingRequests rid rid' hne

theorem claim_C5_witness :
    (RA_handleTunnelResponse exC5St (errorHttpResponse [114, 49] [98, 97, 100])).2
      = [ClientOutput.rejectResponse [114, 49] [98, 97, 100]] :=
  (claim_C5 exC5St [114, 49] [98, 97, 100] rfl (by decide)).2.2.1

/-- C10 counterexample: a present but falsy body — `body: null` — fails
the `if (init?.body)` truthiness test, so the tunneled request carries no
body at all, while `JSON.stringify(null)` is the string `null`:
"the body field of the http_request sent through the tunnel equals
JSON.stringify(init.body)" fails for present falsy bodies. -/
theorem claim_C10_counterexample :
    RA_fetchBody (some JSVal.null) = none ∧
    jsonStrVal JSVal.null = some (bytesOfAscii "null") := by
  constructor
  · rfl
  · simp [jsonStrVal]

/-- C10 (amended): an absent body and a present falsy body (null, empty
string, 0, false) leave the tunneled request's body unset; a truthy
string body passes through unchanged; and every other truthy body is sent
as its `JSON.stringify` (in particular it is not base64-encoded). -/
theorem claim_C10 (v : JSVal) :
    RA_fetchBody none = none ∧
    (jsTruthy v = false → RA_fetchBody (some v) = none) ∧
    (jsTruthy v = true → ∀ s : List Nat, v = JSVal.str s →
      RA_fetchBody (some v) = some s) ∧
    (jsTruthy v = true → (∀ s : List Nat, v ≠ JSVal.str s) →
      RA_fetchBody (some v) = jsonStrVal v) := by
  refine ⟨rfl, ?_, ?_, ?_⟩
  · intro h
    simp [RA_fetchBody, h]
  · intro h s hs
    subst hs
    simp [RA_fetchBody, h]
  · intro ht hns
    cases v with
    | str s => exact absurd rfl (hns s)
    | null => exact absurd ht (by simp [jsTruthy])
    | undef => exact absurd ht (by simp [jsTruthy])
    | bool b => simp [RA_fetchBody, ht]
    | num n => simp [RA_fetchBody, ht]
    | bytes bs => simp [RA_fetchBody, ht]
    | arr xs => simp [RA_fetchBody, ht]
    | obj fs => simp [RA_fetchBody, ht]

theorem claim_C10_witness :
    RA_fetchBody (some (JSVal.bytes [1, 2, 3])) = jsonStrVal (JSVal.bytes [1, 2, 3]) :=
  (claim_C10 (JSVal.bytes [1, 2, 3])).2.2.2 rfl (fun _ h => nomatch h)

/-! ## Claim C4: the 30-second request timeout -/

theorem contains_filter_self {α : Type} [BEq α] [LawfulBEq α] [DecidableEq α]
    (l : List α) (x : α) :
    (l.filter (fun id => id ≠ x)).contains x = false := by
  induction l with
  | nil => rfl
  | cons a t ih =>
    by_cases ha : a ≠ x
    · rw [List.filter_cons_of_pos (by simpa using ha)]
      rw [List.contains_cons]
      have hxa : (x == a) = false := by
        simp only [beq_eq_false_iff_ne, ne_eq]
        intro hx
        exact ha hx.symm
      simp [hxa, ih]
    · rw [List.filter_cons_of_neg (by simpa using ha)]
      exact ih

theorem handleTunnelResponse_pending_other (st : RAState) (resp : TunnelHTTPResponse)
    (rid : List Nat) (hne : resp.requestId ≠ rid)
    (hp : st.pendingRequests.contains rid = true) :
    ((RA_handleTunnelResponse st resp).1).pendingRequests.contains rid = true := by
  unfold RA_handleTunnelResponse
  split
  · show (st.pendingRequests.filter (fun id => id ≠ resp.requestId)).contains rid = true
    rw [contains_filter_ne _ _ _ (fun h => hne h.symm)]
    exact hp
  · exact hp

theorem clientStep_pending (freshKey : List Nat) (st : RAState) (e : ClientEvent)
    (rid : List Nat)
    (hp : st.pendingRequests.contains rid = true)
    (ht : eventTouches st e rid = false) :
    ((clientStep freshKey st e).1).pendingRequests.contains rid = true := by
  cases e with
  | closed => exact hp
  | timeoutFired rid2 =>
    simp only [eventTouches, decide_eq_false_iff_not] at ht
    simp only [clientStep, RA_fireTimeout]
    split
    · show (st.pendingRequests.filter (fun id => id ≠ rid2)).contains rid = true
      rw [contains_filter_ne _ _ _ (fun h => ht h.symm)]
      exact hp
    · exact hp
  | message data =>
    simp only [clientStep, RA_handleMessage]
    split
    · exact hp
    · rename_i msg hparse
      simp only [eventTouches, hparse] at ht
      by_cases hskx : jsGetStr msg (bytesOfAscii "type") = some (bytesOfAscii "server_kx")
      · rw [if_pos hskx]
        split
        · exact hp
        · split
          · exact hp
          · exact hp
      · rw [if_neg hskx]
        by_cases henc : jsGetStr msg (bytesOfAscii "type") = some (bytesOfAscii "enc")
        · rw [if_pos henc]
          rw [if_pos henc] at ht
          split
          · exact hp
          · rename_i key hkey
            simp only [hkey] at ht
            split
            · rename_i nb cb hnb hcb
              simp only [hnb, hcb] at ht
              split
              · exact hp
              · rename_i decrypted hdec
                simp only [hdec] at ht
                by_cases hresp : jsGetStr decrypted (bytesOfAscii "type")
                    = some (bytesOfAscii "http_response")
                · rw [if_pos hresp]
                  simp [hresp] at ht
                  split
                  · rename_i resp hrr
                    apply handleTunnelResponse_pending_other _ _ _ _ hp
                    unfold clientReadResponse at hrr
                    cases hq : jsGetStr decrypted (bytesOfAscii "requestId") with
                    | none =>
                      rw [hq] at hrr
                      exact absurd hrr (by simp)
                    | some q =>
                      simp only [hq, Option.map_some] at hrr
                      have h1 := (Option.some.inj hrr).symm
                      have hq2 : resp.requestId = q := by rw [h1]
                      intro hcon
                      exact ht (by rw [hq, ← hq2, hcon])
                  · exact hp
                · rw [if_neg hresp]
                  by_cases hwe : jsGetStr decrypted (bytesOfAscii "type")
                      = some (bytesOfAscii "ws_event")
                  · rw [if_pos hwe]
                    split
                    · split <;> exact hp
                    · exact hp
                  · rw [if_neg hwe]
                    by_cases hwm : jsGetStr decrypted (bytesOfAscii "type")
                        = some (bytesOfAscii "ws_message")
                    · rw [if_pos hwm]
                      split
                      · split <;> exact hp
                      · exact hp
                    · rw [if_neg hwm]
                      exact hp
            · exact hp
        · rw [if_neg henc]
          exact hp

theorem clientProcessTrace_pending (freshKey rid : List Nat) :
    ∀ evs : List ClientEvent, ∀ st : RAState,
      st.pendingRequests.contains rid = true →
      noSettleFor freshKey rid st evs →
      (clientProcessTrace freshKey st evs).pendingRequests.contains rid = true := by
  intro evs
  induction evs with
  | nil => exact fun st hp _ => hp
  | cons e rest ih =>
    intro st hp hn
    exact ih _ (clientStep_pending freshKey st e rid hp hn.1) hn.2

/-- C4: while no `http_response` for a pending request id arrives (and its
own timer has not fired), the waiter stays in the pending map through any
sequence of client events; when the 30-second timer then fires, the
waiter is removed from the pending map and the fetch promise is rejected
with the request-timeout error. -/
theorem claim_C4 (freshKey : List Nat) (st : RAState) (rid : List Nat)
    (evs : List ClientEvent)
    (hp : st.pendingRequests.contains rid = true)
    (hn : noSettleFor freshKey rid st evs) :
    (clientProcessTrace freshKey st evs).pendingRequests.contains rid = true ∧
    (RA_fireTimeout (clientProcessTrace freshKey st evs) rid).1.pendingRequests.contains rid
      = false ∧
    (RA_fireTimeout (clientProcessTrace freshKey st evs) rid).2
      = [ClientOutput.rejectResponse rid (bytesOfAscii "Request timeout")] := by
  have hpe := clientProcessTrace_pending freshKey rid evs st hp hn
  refine ⟨hpe, ?_, ?_⟩
  · simp only [RA_fireTimeout, hpe]
    rw [if_pos trivial]
    exact contains_filter_self _ rid
  · simp only [RA_fireTimeout, hpe]
    rw [if_pos trivial]

theorem claim_C4_witness :
    (RA_fireTimeout (clientProcessTrace [] exC5St [ClientEvent.closed]) [114, 49]).2
      = [ClientOutput.rejectResponse [114, 49] (bytesOfAscii "Request timeout")] :=
  (claim_C4 [] exC5St [114, 49] [ClientEvent.closed] rfl ⟨rfl, trivial⟩).2.2

/-! ## Byte bounds (everything the cipher emits is a byte) -/

theorem xor_lt_256 (a b : Nat) (ha : a < 256) (hb : b < 256) : a ^^^ b < 256 := by
  have h := Nat.xor_lt_two_pow (show a < 2 ^ 8 by omega) (show b < 2 ^ 8 by omega)
  omega

theorem le4_lt (w : Nat) : ∀ b ∈ le4 w, b < 256 := by
  intro b hb
  simp only [le4, List.mem_cons, List.not_mem_nil, or_false] at hb
  rcases hb with h | h | h | h <;> omega

theorem append16_le4_lt (w1 w2 w3 w4 w5 w6 w7 w8 w9 w10 w11 w12 w13 w14 w15 w16 : Nat) :
    ∀ b ∈ le4 w1 ++ le4 w2 ++ le4 w3 ++ le4 w4 ++ le4 w5 ++ le4 w6 ++ le4 w7 ++
      le4 w8 ++ le4 w9 ++ le4 w10 ++ le4 w11 ++ le4 w12 ++ le4 w13 ++ le4 w14 ++
      le4 w15 ++ le4 w16, b < 256 := by
  intro b hb
  simp only [List.mem_append, or_assoc] at hb
  rcases hb with hb|hb|hb|hb|hb|hb|hb|hb|hb|hb|hb|hb|hb|hb|hb|hb <;>
    exact le4_lt _ b hb

theorem salsa20Block_lt (key input : List Nat) : ∀ b ∈ salsa20Block key input, b < 256 :=
  fun b hb => append16_le4_lt _ _ _ _ _ _ _ _ _ _ _ _ _ _ _ _ b hb

theorem xsalsa20Stream_lt (key nonce : List Nat) (n : Nat) :
    ∀ b ∈ xsalsa20Stream key nonce n, b < 256 := by
  intro b hb
  have hb2 := List.mem_of_mem_take hb
  rcases List.mem_flatten.mp hb2 with ⟨blk, hblk, hbin⟩
  rcases List.mem_map.mp hblk with ⟨i, _, hblkeq⟩
  rw [← hblkeq] at hbin
  simp only [xsalsa20Block] at hbin
  exact salsa20Block_lt _ _ b hbin

theorem le16_lt (n : Nat) : ∀ b ∈ le16 n, b < 256 := by
  intro b hb
  simp only [le16, List.mem_cons, List.not_mem_nil, or_false] at hb
  rcases hb with h|h|h|h|h|h|h|h|h|h|h|h|h|h|h|h <;> omega

theorem poly1305_lt (msg polyKey : List Nat) : ∀ b ∈ poly1305 msg polyKey, b < 256 := by
  intro b hb
  simp only [poly1305] at hb
  exact le16_lt _ b hb

theorem zipWith_xor_lt : ∀ m ks : List Nat, (∀ b ∈ m, b < 256) → (∀ b ∈ ks, b < 256) →
    ∀ b ∈ List.zipWith (fun a b => a ^^^ b) m ks, b < 256 := by
  intro m
  induction m with
  | nil => intro ks _ _ b hb; simp at hb
  | cons a t ih =>
    intro ks hm hk b hb
    cases ks with
    | nil => simp at hb
    | cons c ks' =>
      simp only [List.zipWith_cons_cons, List.mem_cons] at hb
      rcases hb with hb | hb
      · subst hb
        exact xor_lt_256 a c (hm a (by simp)) (hk c (by simp))
      · exact ih ks' (fun x hx => hm x (by simp [hx])) (fun x hx => hk x (by simp [hx])) b hb

theorem crypto_secretbox_easy_lt (m nonce key : List Nat) (hm : ∀ b ∈ m, b < 256) :
    ∀ b ∈ crypto_secretbox_easy m nonce key, b < 256 := by
  intro b hb
  simp only [crypto_secretbox_easy, List.mem_append] at hb
  rcases hb with hb | hb
  · exact poly1305_lt _ _ b hb
  · exact zipWith_xor_lt m _ hm
      (fun x hx => xsalsa20Stream_lt key nonce _ x (List.mem_of_mem_drop hx)) b hb

/-! ## Byte bounds of `JSON.stringify` output -/

theorem printNatAux_lt : ∀ n : Nat, ∀ b ∈ printNatAux n, b < 256 := by
  intro n
  induction n using Nat.strong_induction_on with
  | _ n ih =>
    intro b hb
    rw [printNatAux.eq_def] at hb
    split at hb
    · simp at hb
    · rename_i hn
      simp only [List.mem_append, List.mem_cons, List.not_mem_nil, or_false] at hb
      rcases hb with hb | hb
      · exact ih (n / 10) (Nat.div_lt_self (by omega) (by omega)) b hb
      · omega

theorem printNatBytes_lt (n : Nat) : ∀ b ∈ printNatBytes n, b < 256 := by
  intro b hb
  unfold printNatBytes at hb
  split at hb
  · simp at hb
    omega
  · exact printNatAux_lt n b hb

theorem printIntBytes_lt (i : Int) : ∀ b ∈ printIntBytes i, b < 256 := by
  intro b hb
  cases i with
  | ofNat m => exact printNatBytes_lt m b hb
  | negSucc m =>
    simp only [printIntBytes, List.mem_cons] at hb
    rcases hb with hb | hb
    · omega
    · exact printNatBytes_lt (m + 1) b hb

theorem hexDigitByte_lt (n : Nat) (h : n < 16) : hexDigitByte n < 256 := by
  unfold hexDigitByte
  split <;> omega

theorem escByte_lt (x : Nat) (hx : x < 256) : ∀ c ∈ escByte x, c < 256 := by
  intro c hc
  unfold escByte at hc
  split_ifs at hc with h1 h2 h3 h4 h5 h6 h7 h8 <;>
    simp only [List.mem_cons, List.not_mem_nil, or_false] at hc
  · rcases hc with rfl | rfl <;> omega
  · rcases hc with rfl | rfl <;> omega
  · rcases hc with rfl | rfl <;> omega
  · rcases hc with rfl | rfl <;> omega
  · rcases hc with rfl | rfl <;> omega
  · rcases hc with rfl | rfl <;> omega
  · rcases hc with rfl | rfl <;> omega
  · rcases hc with rfl | rfl | rfl | rfl | rfl | rfl
    · omega
    · omega
    · omega
    · omega
    · exact hexDigitByte_lt _ (by omega)
    · exact hexDigitByte_lt _ (by omega)
  · subst hc
    exact hx

theorem escString_lt (s : List Nat) (hs : ∀ b ∈ s, b < 256) :
    ∀ c ∈ escString s, c < 256 := by
  intro c hc
  simp only [escString] at hc
  rcases List.mem_flatten.mp hc with ⟨piece, hp, hcp⟩
  rcases List.mem_map.mp hp with ⟨b, hbs, hpe⟩
  rw [← hpe] at hcp
  exact escByte_lt b (hs b hbs) c hcp

theorem joinTail_lt : ∀ l : List (List Nat),
    (∀ p ∈ l, ∀ b ∈ p, b < 256) → ∀ b ∈ joinTail l, b < 256 := by
  intro l
  induction l with
  | nil =>
    intro _ b hb
    simp [joinTail] at hb
  | cons x rest ih =>
    intro hl b hb
    simp only [joinTail, List.mem_cons, List.mem_append] at hb
    rcases hb with rfl | hb | hb
    · omega
    · exact hl x (by simp) b hb
    · exact ih (fun p hp => hl p (by simp [hp])) b hb

theorem joinComma_lt (l : List (List Nat))
    (hl : ∀ p ∈ l, ∀ b ∈ p, b < 256) : ∀ b ∈ joinComma l, b < 256 := by
  intro b hb
  cases l with
  | nil => simp [joinComma] at hb
  | cons a t =>
    rw [joinComma_cons] at hb
    rcases List.mem_append.mp hb with hb | hb
    · exact hl a (by simp) b hb
    · exact joinTail_lt t (fun p hp => hl p (by simp [hp])) b hb

theorem jsonBytesAux : ∀ n : Nat,
    (∀ v : JSVal, sizeOf v ≤ n → jsonSafe v = true → ∀ s, jsonStrVal v = some s →
      ∀ b ∈ s, b < 256) ∧
    (∀ xs : List JSVal, sizeOf xs ≤ n → jsonSafeElems xs = true →
      ∀ p ∈ jsonStrElems xs, ∀ b ∈ p, b < 256) ∧
    (∀ fs : List (List Nat × JSVal), sizeOf fs ≤ n → jsonSafeFields fs = true →
      ∀ p ∈ jsonStrFields fs, ∀ b ∈ p, b < 256) := by
  intro n
  induction n with
  | zero =>
    refine ⟨?_, ?_, ?_⟩
    · intro v hsz _ _ _
      have : 0 < sizeOf v := by cases v <;> simp_arith
      omega
    · intro xs hsz _
      have : 0 < sizeOf xs := by cases xs <;> simp_arith
      omega
    · intro fs hsz _
      have : 0 < sizeOf fs := by cases fs <;> simp_arith
      omega
  | succ k ih =>
    obtain ⟨ihV, ihE, ihF⟩ := ih
    refine ⟨?_, ?_, ?_⟩
    · intro v hsz hv s hs b hb
      cases v with
      | undef => simp [jsonSafe] at hv
      | bytes bs => simp [jsonSafe] at hv
      | null =>
        have h := Option.some.inj hs
        subst h
        have hall : ∀ x ∈ bytesOfAscii "null", x < 256 := by decide
        exact hall b hb
      | bool b' =>
        cases b' with
        | true =>
          have h := Option.some.inj hs
          subst h
          have hall : ∀ x ∈ bytesOfAscii "true", x < 256 := by decide
          exact hall b hb
        | false =>
          have h := Option.some.inj hs
          subst h
          have hall : ∀ x ∈ bytesOfAscii "false", x < 256 := by decide
          exact hall b hb
      | num m =>
        have h := Option.some.inj hs
        subst h
        exact printIntBytes_lt m b hb
      | str s' =>
        have h := Option.some.inj hs
        subst h
        have hs2 : ∀ x ∈ s', x < 256 := by
          rw [jsonSafe] at hv
          intro x hx
          have := List.all_eq_true.mp hv x hx
          simpa using this
        simp only [List.mem_cons, List.mem_append] at hb
        rcases hb with rfl | hb | hb
        · omega
        · exact escString_lt s' hs2 b hb
        · simp at hb
          omega
      | arr xs =>
        have h := Option.some.inj hs
        subst h
        have hszx : sizeOf xs ≤ k := by
          simp only [JSVal.arr.sizeOf_spec] at hsz
          omega
        have hsafe : jsonSafeElems xs = true := by
          rw [jsonSafe] at hv
          exact hv
        simp only [List.mem_cons, List.mem_append] at hb
        rcases hb with rfl | hb | hb
        · omega
        · exact joinComma_lt _ (ihE xs hszx hsafe) b hb
        · simp at hb
          omega
      | obj fs =>
        have h := Option.some.inj hs
        subst h
        have hszf : sizeOf fs ≤ k := by
          simp only [JSVal.obj.sizeOf_spec] at hsz
          omega
        have hsafe : jsonSafeFields fs = true := by
          rw [jsonSafe] at hv
          exact hv
        simp only [List.mem_cons, List.mem_append] at hb
        rcases hb with rfl | hb | hb
        · omega
        · exact joinComma_lt _ (ihF fs hszf hsafe) b hb
        · simp at hb
          omega
    · intro xs hsz hsafe p hp b hb
      cases xs with
      | nil => simp [jsonStrElems] at hp
      | cons x xs' =>
        rw [jsonSafeElems, Bool.and_eq_true] at hsafe
        obtain ⟨hx, hxs⟩ := hsafe
        obtain ⟨sx, hsx⟩ := jsonStrVal_safe_isSome x hx
        simp only [jsonStrElems, hsx, Option.getD_some, List.mem_cons] at hp
        rcases hp with hpe | hp
        · rw [hpe] at hb
          apply ihV x ?_ hx sx hsx b hb
          simp only [List.cons.sizeOf_spec] at hsz
          omega
        · apply ihE xs' ?_ hxs p hp b hb
          simp only [List.cons.sizeOf_spec] at hsz
          omega
    · intro fs hsz hsafe p hp b hb
      cases fs with
      | nil => simp [jsonStrFields] at hp
      | cons kv fs' =>
        obtain ⟨key, v'⟩ := kv
        rw [jsonSafeFields, Bool.and_eq_true, Bool.and_eq_true] at hsafe
        obtain ⟨⟨hk, hv'⟩, hfs⟩ := hsafe
        obtain ⟨sv, hsv⟩ := jsonStrVal_safe_isSome v' hv'
        simp only [jsonStrFields, hsv, List.mem_cons] at hp
        rcases hp with hpe | hp
        · have hk2 : ∀ x ∈ key, x < 256 := by
            intro x hx
            have := List.all_eq_true.mp hk x hx
            simpa using this
          rw [hpe] at hb
          rcases List.mem_append.mp hb with hb2 | hb2
          · simp only [List.mem_cons, List.mem_append, List.not_mem_nil,
              or_false] at hb2
            rcases hb2 with rfl | hb2 | rfl
            · omega
            · exact escString_lt key hk2 b hb2
            · omega
          · simp only [List.mem_cons] at hb2
            rcases hb2 with rfl | hb2
            · omega
            · apply ihV v' ?_ hv' sv hsv b hb2
              simp only [List.cons.sizeOf_spec, Prod.mk.sizeOf_spec] at hsz
              omega
        · apply ihF fs' ?_ hfs p hp b hb
          simp only [List.cons.sizeOf_spec] at hsz
          omega

theorem jsonStrVal_bytes_lt (v : JSVal) (hv : jsonSafe v = true) (s : List Nat)
    (hs : jsonStrVal v = some s) : ∀ b ∈ s, b < 256 :=
  (jsonBytesAux (sizeOf v)).1 v le_rfl hv s hs

/-! ## Claim C9: the encrypt/decrypt round trip -/

def exC9Key : List Nat := List.replicate 32 1

def exC9Nonce : List Nat := List.replicate 24 2

/-- C9 counterexample: on the client leg the payload travels through
`JSON.stringify`/`JSON.parse`, which is not the identity on JavaScript
values — the payload `[undefined]` serializes as the text `[null]`, so
decrypting its own envelope under the same key yields `[null]`, not the
original payload. -/
theorem claim_C9_counterexample :
    (RA_encryptPayload exC9Key exC9Nonce (JSVal.arr [JSVal.undef])).bind
        (RA_decryptEnvelope exC9Key)
      = some (JSVal.arr [JSVal.null]) ∧
    JSVal.arr [JSVal.null] ≠ JSVal.arr [JSVal.undef] := by
  constructor
  · have hsafe : jsonSafe (JSVal.arr [JSVal.null]) = true := by
      simp [jsonSafe, jsonSafeElems]
    obtain ⟨pt, hpt⟩ := jsonStrVal_safe_isSome (JSVal.arr [JSVal.null]) hsafe
    have hstr : jsonStrVal (JSVal.arr [JSVal.undef]) = some pt := by
      rw [← hpt]
      simp [jsonStrVal, jsonStrElems]
    have hptb : ∀ b ∈ pt, b < 256 := jsonStrVal_bytes_lt _ hsafe pt hpt
    have hnb : ∀ b ∈ exC9Nonce, b < 256 := by decide
    have hct : ∀ b ∈ crypto_secretbox_easy pt exC9Nonce exC9Key, b < 256 :=
      crypto_secretbox_easy_lt pt exC9Nonce exC9Key hptb
    simp only [RA_encryptPayload, hstr, Option.some_bind]
    simp only [RA_decryptEnvelope, b64decode_b64encode exC9Nonce hnb,
      b64decode_b64encode _ hct, Option.some_bind,
      crypto_secretbox_roundtrip pt exC9Nonce exC9Key]
    exact jsonParse_jsonStrVal _ pt hsafe hpt
  · simp

/-- C9 (amended): each leg round-trips on its own domain. The client's
decryptEnvelope inverts encryptPayload under the same key for every
byte-valued nonce and every JSON-faithful payload (`jsonSafe`: no
`undefined`, no `Uint8Array`, in-range numbers, byte-valued strings);
the server's decrypt-for-socket inverts encrypt-for-socket under the
same socket key for every CBOR-representable payload (`cborWF`:
integers within 64 bits, byte-valued strings, lengths below 2^64 —
`undefined` and `Uint8Array` payloads included). On the client,
payloads outside the JSON-faithful class need not come back, as the
counterexample shows. -/
theorem claim_C9 (key nonce : List Nat) (p : JSVal) :
    ((∀ b ∈ nonce, b < 256) → jsonSafe p = true →
      ∃ env, RA_encryptPayload key nonce p = some env ∧
        RA_decryptEnvelope key env = some p) ∧
    (cborWF p = true →
      decryptEnvelopeForSocket key (encryptForSocket key nonce p) = some p) := by
  constructor
  · intro hnb hjson
    obtain ⟨pt, hpt⟩ := jsonStrVal_safe_isSome p hjson
    have hptb : ∀ b ∈ pt, b < 256 := jsonStrVal_bytes_lt p hjson pt hpt
    have hct : ∀ b ∈ crypto_secretbox_easy pt nonce key, b < 256 :=
      crypto_secretbox_easy_lt pt nonce key hptb
    refine ⟨⟨b64encode nonce, b64encode (crypto_secretbox_easy pt nonce key)⟩, ?_, ?_⟩
    · simp [RA_encryptPayload, hpt]
    · simp only [RA_decryptEnvelope, b64decode_b64encode nonce hnb,
        b64decode_b64encode _ hct, Option.some_bind,
        crypto_secretbox_roundtrip pt nonce key]
      exact jsonParse_jsonStrVal p pt hjson hpt
  · intro hcbor
    simp only [decryptEnvelopeForSocket, encryptForSocket,
      crypto_secretbox_roundtrip (cborEncodeVal p) nonce key, Option.some_bind]
    exact cborDecode_cborEncodeVal p hcbor

theorem claim_C9_witness :
    (∃ env, RA_encryptPayload (List.replicate 32 1) (List.replicate 24 3)
        (JSVal.str [97]) = some env ∧
      RA_decryptEnvelope (List.replicate 32 1) env = some (JSVal.str [97])) ∧
    decryptEnvelopeForSocket (List.replicate 32 1)
        (encryptForSocket (List.replicate 32 1) (List.replicate 24 3)
          (JSVal.arr [JSVal.undef, JSVal.bytes [0, 255]]))
      = some (JSVal.arr [JSVal.undef, JSVal.bytes [0, 255]]) :=
  ⟨(claim_C9 (List.replicate 32 1) (List.replicate 24 3) (JSVal.str [97])).1
      (by decide) (by simp [jsonSafe]),
    (claim_C9 (List.replicate 32 1) (List.replicate 24 3)
        (JSVal.arr [JSVal.undef, JSVal.bytes [0, 255]])).2
      (by simp [cborWF, cborWFElems])⟩

/-! ## The TDX v4 quote layout (QVL parser) -/

/-- Modelled from the spec: the QVL quote parser is not under `src/`
(the tests import it from `../qvl`); spec §3 fixes the quote's common
48-byte header — version (u16), attestation_key_type (u16), tee_type
(u32), qe_svn (u16), pce_svn (u16), qe_vendor_id (16 B), user_data
(20 B) — all little-endian. -/
structure TDXQuoteHeader where
  version : Nat
  attestation_key_type : Nat
  tee_type : Nat
  qe_svn : Nat
  pce_svn : Nat
  qe_vendor_id : List Nat
  user_data : List Nat

/-- Modelled from the spec: the TDX v4 body (584 B) — tee_tcb_svn (16 B),
mr_seam (48 B), mr_seam_signer (48 B), seam_attributes (8 B),
td_attributes (8 B), xfam (8 B), mr_td (48 B), mr_config_id (48 B),
mr_owner (48 B), mr_owner_config (48 B), rtmr0..rtmr3 (48 B each),
report_data (64 B). -/
structure TDXQuoteBodyV4 where
  tee_tcb_svn : List Nat
  mr_seam : List Nat
  mr_seam_signer : List Nat
  seam_attributes : List Nat
  td_attributes : List Nat
  xfam : List Nat
  mr_td : List Nat
  mr_config_id : List Nat
  mr_owner : List Nat
  mr_owner_config : List Nat
  rtmr0 : List Nat
  rtmr1 : List Nat
  rtmr2 : List Nat
  rtmr3 : List Nat
  report_data : List Nat

/-- A little-endian u16 at a byte offset. -/
def leU16 (bs : List Nat) (off : Nat) : Nat :=
  bs.getD off 0 + 256 * bs.getD (off + 1) 0

/-- A little-endian u32 at a byte offset. -/
def leU32 (bs : List Nat) (off : Nat) : Nat :=
  bs.getD off 0 + 256 * bs.getD (off + 1) 0 + 65536 * bs.getD (off + 2) 0 +
    16777216 * bs.getD (off + 3) 0

/-- The `len` bytes from offset `off`. -/
def subBytes (bs : List Nat) (off len : Nat) : List Nat :=
  (bs.drop off).take len

/-- Modelled from the spec: the common header parse at offset 0. -/
def parseTdxHeader (q : List Nat) : TDXQuoteHeader :=
  { version := leU16 q 0,
    attestation_key_type := leU16 q 2,
    tee_type := leU32 q 4,
    qe_svn := leU16 q 8,
    pce_svn := leU16 q 10,
    qe_vendor_id := subBytes q 12 16,
    user_data := subBytes q 28 20 }

/-- Modelled from the spec: the fixed 584-byte v4 body at offset 48. -/
def parseTdxBodyV4 (q : List Nat) : TDXQuoteBodyV4 :=
  { tee_tcb_svn := subBytes q 48 16,
    mr_seam := subBytes q 64 48,
    mr_seam_signer := subBytes q 112 48,
    seam_attributes := subBytes q 160 8,
    td_attributes := subBytes q 168 8,
    xfam := subBytes q 176 8,
    mr_td := subBytes q 184 48,
    mr_config_id := subBytes q 232 48,
    mr_owner := subBytes q 280 48,
    mr_owner_config := subBytes q 328 48,
    rtmr0 := subBytes q 376 48,
    rtmr1 := subBytes q 424 48,
    rtmr2 := subBytes q 472 48,
    rtmr3 := subBytes q 520 48,
    report_data := subBytes q 568 64 }

/-- Modelled from the spec: `parse_tdx` on a v4 quote — the length must
cover header, fixed v4 body and the signature-length prefix (spec §4.1:
"length ≥ header + body + signature-len prefix"). -/
def parseTdxQuote (q : List Nat) : Option (TDXQuoteHeader × TDXQuoteBodyV4) :=
  if q.length < 48 + 584 + 4 then none
  else some (parseTdxHeader q, parseTdxBodyV4 q)

/-- One hexadecimal digit byte (0-9, a-f, A-F) to its value. -/
def hexByteVal (c : Nat) : Option Nat :=
  if 48 ≤ c ∧ c ≤ 57 then some (c - 48)
  else if 97 ≤ c ∧ c ≤ 102 then some (c - 87)
  else if 65 ≤ c ∧ c ≤ 70 then some (c - 55)
  else none

/-- Modelled from the spec: the hex envelope helper — pairs of hex digit
bytes to bytes. -/
def hexDecode : List Nat → Option (List Nat)
  | [] => some []
  | [_] => none
  | c1 :: c2 :: rest =>
    (hexByteVal c1).bind fun h =>
    (hexByteVal c2).bind fun l =>
    (hexDecode rest).map fun bs => (16 * h + l) :: bs

/-- On any byte string long enough, the v4 parse succeeds and every
field of the result is the documented slice of the input. -/
theorem parseTdxQuote_fields (q : List Nat) (h : 48 + 584 + 4 ≤ q.length) :
    parseTdxQuote q = some (parseTdxHeader q, parseTdxBodyV4 q) ∧
    (parseTdxHeader q).version = leU16 q 0 ∧
    (parseTdxHeader q).tee_type = leU32 q 4 ∧
    (parseTdxBodyV4 q).mr_td = subBytes q 184 48 ∧
    (parseTdxBodyV4 q).report_data = subBytes q 568 64 ∧
    (parseTdxBodyV4 q).mr_config_id = subBytes q 232 48 ∧
    (parseTdxBodyV4 q).mr_owner = subBytes q 280 48 ∧
    (parseTdxBodyV4 q).mr_owner_config = subBytes q 328 48 := by
  refine ⟨?_, rfl, rfl, rfl, rfl, rfl, rfl, rfl⟩
  unfold parseTdxQuote
  rw [if_neg (by omega)]
